import Mathlib

/-!
Verification development for the live bib-tracking leaderboard server.

The definitions below are a shallow embedding of the Python sources:
`src/api_backend/local_server.py` (leaderboard store, roster import, race
clock, websocket broadcast) and `src/image_processor/video_inference.py`
(per-tracker finish detection and bib resolution).  Python floats are
modelled as rationals, Python dictionaries as insertion-ordered association
lists, and Python's stable `list.sort` as a stable insertion sort.
-/

namespace BibTrack

/-! ## Stable sort

Python's `list.sort(key=...)` is a stable sort.  We model it by a stable
insertion sort parameterised by a boolean `le` test: an element is inserted
before the first element it is not `ge` to, so that elements comparing
equal keep their original relative order.  For a total, transitive `le`
this computes the same list as any stable sort, in particular Timsort. -/

def ordInsert (le : α → α → Bool) (a : α) : List α → List α
  | [] => [a]
  | b :: l => if le a b then a :: b :: l else b :: ordInsert le a l

def isort (le : α → α → Bool) : List α → List α
  | [] => []
  | a :: l => ordInsert le a (isort le l)

/-! ## Leaderboard data model

`ResultEntry` dictionaries of `local_server.py` (`race_results` elements).
Optional dictionary keys are modelled as `Option` fields; `none` means the
key is absent (or holds `None`). -/

structure Racer where
  id : String
  bibNumber : String
  racerName : String
  finishTime : Option ℚ
  rank : Option Int
  gender : Option String
  team : Option String
deriving DecidableEq, Repr

def bibs (rs : List Racer) : List String := rs.map (fun r => r.bibNumber)

/-- Python's `str.upper()` for the ASCII data handled here, implemented
by structural recursion over the character list so that it evaluates
inside the kernel. -/
def strUpper (s : String) : String := String.mk (s.data.map Char.toUpper)

/-- Whitespace test of Python's `str.strip()`. -/
def isWs (c : Char) : Bool :=
  c = ' ' ∨ c = '\t' ∨ c = '\n' ∨ c = '\r'

def dropLeadingWs : List Char → List Char
  | [] => []
  | c :: cs => if isWs c then dropLeadingWs cs else c :: cs

/-- Python's `str.strip()`: drop leading and trailing whitespace;
implemented by structural recursion so that it evaluates inside the
kernel. -/
def strTrim (s : String) : String :=
  String.mk ((dropLeadingWs ((dropLeadingWs s.data).reverse)).reverse)

/-- Gender normalisation used by all endpoints (`local_server.py` 504-511,
749-756, 790-798). -/
def normalizeGender (g : String) : String :=
  let u := strUpper g
  if u = "M" ∨ u = "MALE" ∨ u = "MAN" then "M"
  else if u = "W" ∨ u = "F" ∨ u = "FEMALE" ∨ u = "WOMAN" then "W"
  else u

/-- `race_results[racer_index]["finishTime"] = finish_time` for the first
list entry matching the bib number (`local_server.py` 681-698). -/
def setFinishFirst (bib : String) (t : ℚ) : List Racer → List Racer
  | [] => []
  | r :: rs =>
    if r.bibNumber = bib then { r with finishTime := some t } :: rs
    else r :: setFinishFirst bib t rs

/-- The inner write-back loop of the rank recomputation: set the rank of
the first entry whose bib number matches (`local_server.py` 707-711). -/
def setRankFirst (bib : String) (k : Int) : List Racer → List Racer
  | [] => []
  | r :: rs =>
    if r.bibNumber = bib then { r with rank := some k } :: rs
    else r :: setRankFirst bib k rs

/-- Comparison used by `finished_racers.sort(key=lambda x: x["finishTime"])`;
it is only ever applied to entries whose `finishTime` is set. -/
def finTimeLe (a b : Racer) : Bool :=
  match a.finishTime, b.finishTime with
  | some x, some y => decide (x ≤ y)
  | _, _ => true

/-- `[r for r in race_results if r.get("finishTime") is not None]`. -/
def finishedRacers (rs : List Racer) : List Racer :=
  rs.filter (fun r => r.finishTime.isSome)

/-- `for rank, finished_racer in enumerate(finished_racers, 1): ...`
(`local_server.py` 706-711). -/
def assignRanks : List Racer → Int → List Racer → List Racer
  | [], _, rs => rs
  | fr :: frs, k, rs => assignRanks frs (k + 1) (setRankFirst fr.bibNumber k rs)

/-- Rank recomputation performed by `update_finish_time` after an existing
racer's finish time is written (`local_server.py` 701-711). -/
def recompute_ranks (rs : List Racer) : List Racer :=
  assignRanks (isort finTimeLe (finishedRacers rs)) 1 rs

/-- The data reaching `POST /api/results` once the finish time has been
computed: bib number, the resolved finish time in ms, and optional
identity fields. -/
structure FinishEvent where
  bibNumber : String
  finishTime : ℚ
  racerName : Option String
  gender : Option String
  team : Option String
deriving DecidableEq, Repr

/-- The fallback entry created when the bib is not pre-registered
(`local_server.py` 730-761). -/
def newFinisher (ev : FinishEvent) (newRank : Int) : Racer :=
  { id := ev.bibNumber
    bibNumber := ev.bibNumber
    racerName := match ev.racerName with
      | some n => n
      | none => "Racer #" ++ ev.bibNumber
    finishTime := some ev.finishTime
    rank := some newRank
    gender := match ev.gender with
      | some g => if g = "" then none else some (normalizeGender g)
      | none => none
    team := match ev.team with
      | some t => if t = "" then none else some (strTrim t)
      | none => none }

/-- Core of `POST /api/results` (`update_finish_time`, `local_server.py`
676-773), after the finish time has been resolved: update the first entry
with this bib and recompute all ranks, or append a brand-new finisher with
rank `count of currently finished + 1`. -/
def record_finish (rs : List Racer) (ev : FinishEvent) : List Racer :=
  if rs.any (fun r => r.bibNumber = ev.bibNumber) then
    recompute_ranks (setFinishFirst ev.bibNumber ev.finishTime rs)
  else
    rs ++ [newFinisher ev (((finishedRacers rs).length : Int) + 1)]

/-- `DELETE /api/results/{finisher_id}` (`local_server.py` 887-902):
remove the first entry with the given id; no rank recomputation. -/
def delete_finisher : List Racer → String → List Racer
  | [], _ => []
  | r :: rs, fid => if r.id = fid then rs else r :: delete_finisher rs fid

/-- Set the rank of the first entry with the given id (`finisher["rank"] =
rank` inside `reorder_finishers`). -/
def setRankFirstId (fid : String) (k : Int) : List Racer → List Racer
  | [] => []
  | r :: rs =>
    if r.id = fid then { r with rank := some k } :: rs
    else r :: setRankFirstId fid k rs

def findById (fid : String) (rs : List Racer) : Option Racer :=
  rs.find? (fun r => r.id = fid)

/-- `POST /api/reorder` (`local_server.py` 905-932).  The Python loop
mutates the matched dict in `race_results` and appends the *same object*
to `reordered_results`; entries not named in the order list are dropped.
Because of the aliasing, each emitted entry shows the state after all rank
writes, which is what `filterMap` over the fully-updated list computes. -/
def reorder_finishers (rs : List Racer) (order : List (String × Int)) : List Racer :=
  let final := order.foldl (fun cur it => setRankFirstId it.1 it.2 cur) rs
  order.filterMap (fun it => findById it.1 final)

/-- The rank invariant of the spec: the finished entries, listed by
ascending finish time with the stable insertion-order tie-break, carry the
ranks `1..N` in order.  (Equivalently: sorting the finished set by rank
gives the same list as sorting it by finish time.) -/
def rankInvariant (rs : List Racer) : Prop :=
  (isort finTimeLe (finishedRacers rs)).map (fun r => r.rank) =
    (List.range (finishedRacers rs).length).map
      (fun i : ℕ => some ((i : Int) + 1))

instance (rs : List Racer) : Decidable (rankInvariant rs) := by
  unfold rankInvariant; infer_instance

/-- A finish event with no ancillary identity fields, as produced by the
video callback path. -/
def mkEv (b : String) (t : ℚ) : FinishEvent := ⟨b, t, none, none, none⟩

/-- A pre-registered, not-yet-finished roster entry. -/
def mkReg (b : String) (n : String) : Racer := ⟨b, b, n, none, none, none, none⟩

/-- Pointwise form of `setRankFirst` when bib numbers are unique: update
the (unique) entry carrying the bib. -/
def setIf (bib : String) (k : Int) (r : Racer) : Racer :=
  if r.bibNumber = bib then { r with rank := some k } else r

/-- Position of a bib number in a list of bib numbers. -/
def bibIdx (b : String) : List String → Option Nat
  | [] => none
  | c :: cs => if c = b then some 0 else (bibIdx b cs).map (fun i => i + 1)

/-- Functional description of the whole rank write-back loop: an entry
whose bib occurs at position `i` of the sorted finished bib list receives
rank `k + i`. -/
def applyRanks (fb : List String) (k : Int) (r : Racer) : Racer :=
  match bibIdx r.bibNumber fb with
  | some i => { r with rank := some (k + (i : Int)) }
  | none => r

/-! ## Race clock -/

/-- `race_clock_state` (`local_server.py` 183-187).  `status` is kept as a
string, exactly as in the source, whose comment lists the possible values
as stopped, running, or paused. -/
structure ClockState where
  raceStartTime : Option ℚ
  status : String
  offset : ℚ
deriving DecidableEq, Repr

/-- The initial `race_clock_state` value. -/
def clockInit : ClockState :=
  { raceStartTime := none, status := "stopped", offset := 0 }

/-- Operator actions on the race clock.  `start` and `edit` carry the
wall-clock instant at which `time.time()` is read. -/
inductive ClockOp where
  | start (now : ℚ)
  | stop
  | edit (timeMs : ℚ) (now : ℚ)
  | reset
deriving DecidableEq, Repr

/-- The clock endpoints `POST /api/clock/start`, `/stop`, `/edit`,
`/reset` (`local_server.py` 943-1038).  Note that `edit` branches on
whether `raceStartTime` is set, not on the status. -/
def clockStep (s : ClockState) : ClockOp → ClockState
  | ClockOp.start now =>
    { raceStartTime := some now, status := "running", offset := s.offset }
  | ClockOp.stop => { s with status := "stopped" }
  | ClockOp.edit t now =>
    match s.raceStartTime with
    | some st => { s with offset := t - (now - st) * 1000 }
    | none => { s with offset := t }
  | ClockOp.reset => { raceStartTime := none, status := "stopped", offset := 0 }

/-- Official race time at wall-clock instant `t`, defined only while the
clock is running with its start time set; this is the computation guarded
by `update_finish_time` (`local_server.py` 641-650). -/
def officialMs (s : ClockState) (t : ℚ) : Option ℚ :=
  match s.raceStartTime with
  | some st =>
    if s.status = "running" then some ((t - st) * 1000 + s.offset) else none
  | none => none

/-- A `POST /api/results` payload carrying `wallClockTime`, as sent by the
video-processing callback. -/
structure WallFinishPost where
  bibNumber : String
  wallClockTime : ℚ
  racerName : Option String
  gender : Option String
  team : Option String
deriving DecidableEq, Repr

/-- `POST /api/results` with a wall-clock payload (`update_finish_time`,
`local_server.py` 636-650 followed by the store update): when the clock
is running and started, compute the official finish time and record the
finish; otherwise return a failure response and leave the store
untouched.  The first component is the success flag of the response. -/
def update_finish_time (rs : List Racer) (clock : ClockState)
    (p : WallFinishPost) : Bool × List Racer :=
  match clock.raceStartTime with
  | some st =>
    if clock.status = "running" then
      (true, record_finish rs
        ⟨p.bibNumber, (p.wallClockTime - st) * 1000 + clock.offset,
          p.racerName, p.gender, p.team⟩)
    else (false, rs)
  | none => (false, rs)

/-! ## Tracker state and finish detection (video_inference.py) -/

/-- `self.track_history[person_id]` (`video_inference.py` 699-709).
An OCR sample is `(text, ocr confidence, YOLO bib confidence)`. -/
structure TrackState where
  ocr_reads : List (String × ℚ × ℚ)
  finish_time_ms : Option ℚ
  finish_wall_time : Option ℚ
  final_bib : Option String
  final_bib_confidence : ℚ
  has_finished : Bool
deriving DecidableEq, Repr

/-- The history created on the first sighting of a tracker id. -/
def initTrackState : TrackState :=
  { ocr_reads := [], finish_time_ms := none, finish_wall_time := none,
    final_bib := none, final_bib_confidence := 0, has_finished := false }

/-- What one processed frame contributes for one tracker: the horizontal
center `(x1 + x2) / 2` of the person box, the capture-source time
`cap.get(cv2.CAP_PROP_POS_MSEC)`, the wall-clock time `time.time()`, and
the OCR sample appended this frame, if any (present only when a bib box
inside the person box had YOLO confidence above 0.70 and EasyOCR
returned text). -/
structure Obs where
  posX : ℚ
  captureMs : ℚ
  wallT : ℚ
  ocr : Option (String × ℚ × ℚ)
deriving DecidableEq, Repr

/-- `check_finish_line_crossings` (`video_inference.py` 235-256): on the
first frame whose center is at or beyond the finish-zone start, record
the capture time and the wall-clock time and set the finished flag;
afterwards the guard `not history["has_finished"]` makes every further
call a no-op. -/
def check_finish_line_crossings (th : ℚ) (s : TrackState) (o : Obs) :
    TrackState :=
  if ¬ s.has_finished ∧ th ≤ o.posX then
    { s with finish_time_ms := some o.captureMs,
             finish_wall_time := some o.wallT,
             has_finished := true }
  else s

/-- The OCR half of the per-tracker frame processing
(`video_inference.py` 716-752): unless a bib with confidence above 0.90
is already locked in, append this frame's OCR sample to the history. -/
def processOcr (s1 : TrackState) (o : Obs) : TrackState :=
  if s1.final_bib_confidence > 9/10 then s1
  else
    match o.ocr with
    | some sample => { s1 with ocr_reads := s1.ocr_reads ++ [sample] }
    | none => s1

/-- The per-tracker body of `_process_frame` (`video_inference.py`
698-752): check the finish-line crossing, then process this frame's OCR
read. -/
def processObs (th : ℚ) (s : TrackState) (o : Obs) : TrackState :=
  processOcr (check_finish_line_crossings th s o) o

/-- The tracker state after a sequence of frames, starting from the
default history. -/
def runTracker (th : ℚ) (obs : List Obs) : TrackState :=
  obs.foldl (processObs th) initTrackState

/-- The `hasFinished ⇔ both timestamps set` invariant. -/
def trackInv (s : TrackState) : Prop :=
  s.has_finished = true ↔
    (s.finish_time_ms.isSome = true ∧ s.finish_wall_time.isSome = true)

/-! ## Bib resolution (determine_final_bibs) -/

/-- The sample filter of `determine_final_bibs` (`video_inference.py`
329-331): text length in [2, 5] and OCR confidence above 0.4. -/
def filterReads (reads : List (String × ℚ × ℚ)) : List (String × ℚ × ℚ) :=
  reads.filter (fun r => 2 ≤ r.1.length ∧ r.1.length ≤ 5 ∧ r.2.1 > 2/5)

/-- `scores[bib_num] = scores.get(bib_num, 0) + score` on an
insertion-ordered dictionary (`video_inference.py` 334-339). -/
def addScore (scores : List (String × ℚ)) (bib : String) (sc : ℚ) :
    List (String × ℚ) :=
  match scores with
  | [] => [(bib, sc)]
  | (b, v) :: rest =>
    if b = bib then (b, v + sc) :: rest
    else (b, v) :: addScore rest bib sc

/-- The score-accumulation loop over the filtered reads. -/
def buildScores (scores : List (String × ℚ)) :
    List (String × ℚ × ℚ) → List (String × ℚ)
  | [] => scores
  | (b, oc, _) :: rest => buildScores (addScore scores b oc) rest

/-- The candidate texts present in a scores dictionary, in insertion
order. -/
def scoreKeys (scores : List (String × ℚ)) : List String :=
  scores.map (fun p => p.1)

/-- `max(scores, key=scores.get)`: Python's max scans left to right and
replaces the current best only on a strictly greater key, so the first
maximal entry in insertion order wins. -/
def maxPair : List (String × ℚ) → Option (String × ℚ)
  | [] => none
  | x :: rest =>
    some (rest.foldl (fun best y => if y.2 > best.2 then y else best) x)

/-- The value accumulated for a candidate in the scores dictionary. -/
def lookupScore (scores : List (String × ℚ)) (b : String) : ℚ :=
  match scores with
  | [] => 0
  | (b2, v) :: rest => if b2 = b then v else lookupScore rest b

/-- Sum of the OCR confidences of the samples reading a given text. -/
def sumScores (reads : List (String × ℚ × ℚ)) (b : String) : ℚ :=
  ((reads.filter (fun r => r.1 = b)).map (fun r => r.2.1)).sum

/-- The per-tracker body of `determine_final_bibs` (`video_inference.py`
323-347): skip the tracker when it has no samples or none survives the
filter; otherwise return the candidate with the highest accumulated
score together with that score. -/
def determine_final_bib (reads : List (String × ℚ × ℚ)) :
    Option (String × ℚ) :=
  if reads = [] then none
  else
    if filterReads reads = [] then none
    else maxPair (buildScores [] (filterReads reads))

/-- The sample history of the worked example in the spec. -/
def exampleReads : List (String × ℚ × ℚ) :=
  [("123", 9/10, 8/10), ("128", 19/20, 9/10), ("123", 6/10, 7/10)]

/-! ## Websocket broadcast (ConnectionManager) -/

/-- A connected websocket client; `fails` says whether `send_text`
raises for the message being broadcast. -/
structure Conn where
  cid : Nat
  fails : Bool
deriving DecidableEq, Repr

/-- `self.active_connections.remove(client)`: remove the first
occurrence. -/
def removeFirstConn (l : List Conn) (c : Conn) : List Conn :=
  match l with
  | [] => []
  | x :: xs => if x = c then xs else x :: removeFirstConn xs c

/-- `ConnectionManager.broadcast` (`local_server.py` 142-167): return
immediately when there is no client; otherwise attempt a send to every
client in order, collecting the clients whose send raised, then remove
each of those from the active list.  Returns the new active list
together with the clients that received the message, in delivery
order. -/
def broadcast (conns : List Conn) : List Conn × List Conn :=
  if conns.isEmpty then (conns, [])
  else
    let disconnected := conns.filter (fun c => c.fails)
    let delivered := conns.filter (fun c => ! c.fails)
    (disconnected.foldl removeFirstConn conns, delivered)

/-! ## updateEntry (PUT /api/results/{finisher_id}) -/

/-- An identity record stored as a value of `original_roster`
(`local_server.py` 560-565); `gender`/`team` may hold `None`. -/
structure RosterEntry where
  bibNumber : String
  racerName : String
  gender : Option String
  team : Option String
deriving DecidableEq, Repr

/-- A `PUT /api/results/{id}` request body; `none` marks an absent key.
The legacy `MM:SS.cc` string form of `finishTime` is converted before
the merge, so the patch carries the numeric value. -/
structure Patch where
  bibNumber : Option String
  racerName : Option String
  finishTime : Option ℚ
  rank : Option Int
  gender : Option String
  team : Option String
deriving DecidableEq, Repr

/-- The gender/team pre-normalisation applied to the request body before
the merge (`local_server.py` 789-801): gender is normalised whenever the
key is present; team is stripped only when non-empty. -/
def normalizePatch (p : Patch) : Patch :=
  { p with gender := p.gender.map normalizeGender,
           team := p.team.map (fun t => if t = "" then t else strTrim t) }

/-- Lookup in the immutable `original_roster` dictionary. -/
def rosterLookup (roster : List (String × RosterEntry)) (bib : String) :
    Option RosterEntry :=
  (roster.find? (fun q => q.1 = bib)).map (fun q => q.2)

/-- `merged_data` when the (possibly new) bib number is found in the
roster-of-truth (`local_server.py` 824-849): identity is re-derived from
the roster entry, `id`/`finishTime`/`rank` are kept from the existing
entry, and then every non-null patch field except `id` overrides —
`racerName` only when non-empty after stripping. -/
def mergeWithRoster (fid : String) (f : Racer) (newBib : String)
    (rr : RosterEntry) (p : Patch) : Racer :=
  let base : Racer :=
    { id := fid
      bibNumber := newBib
      racerName := rr.racerName
      finishTime := f.finishTime
      rank := f.rank
      gender := match rr.gender with
        | some g => if g = "" then none else some g
        | none => none
      team := match rr.team with
        | some t => if t = "" then none else some t
        | none => none }
  { base with
    bibNumber := p.bibNumber.getD base.bibNumber
    racerName := match p.racerName with
      | some n => if strTrim n = "" then base.racerName else n
      | none => base.racerName
    finishTime := match p.finishTime with
      | some t => some t
      | none => base.finishTime
    rank := match p.rank with
      | some k => some k
      | none => base.rank
    gender := match p.gender with
      | some g => some g
      | none => base.gender
    team := match p.team with
      | some t => some t
      | none => base.team }

/-- The regular-update branch when the bib is not in the roster
(`local_server.py` 867-882): `finisher.copy()` updated with every
present patch key, with the id forced back. -/
def updateNoRoster (fid : String) (f : Racer) (p : Patch) : Racer :=
  { id := fid
    bibNumber := p.bibNumber.getD f.bibNumber
    racerName := p.racerName.getD f.racerName
    finishTime := match p.finishTime with
      | some t => some t
      | none => f.finishTime
    rank := match p.rank with
      | some k => some k
      | none => f.rank
    gender := match p.gender with
      | some g => some g
      | none => f.gender
    team := match p.team with
      | some t => some t
      | none => f.team }

/-- The scan of `race_results` inside `update_finisher`, updating the
first entry with the given id. -/
def update_finisher_list (roster : List (String × RosterEntry))
    (fid : String) (p : Patch) : List Racer → Option Racer × List Racer
  | [] => (none, [])
  | f :: rest =>
    if f.id = fid then
      match rosterLookup roster (p.bibNumber.getD f.bibNumber) with
      | some rr =>
        let merged := mergeWithRoster fid f (p.bibNumber.getD f.bibNumber)
          rr p
        (some merged, merged :: rest)
      | none =>
        let upd := updateNoRoster fid f p
        (some upd, upd :: rest)
    else
      let res := update_finisher_list roster fid p rest
      (res.1, f :: res.2)

/-- `PUT /api/results/{finisher_id}` (`update_finisher`,
`local_server.py` 776-884).  Returns the updated entry (`none` when the
id is not found) together with the updated result list. -/
def update_finisher (rs : List Racer)
    (roster : List (String × RosterEntry)) (fid : String) (p0 : Patch) :
    Option Racer × List Racer :=
  update_finisher_list roster fid (normalizePatch p0) rs

/-! ## Roster import (upload_roster) -/

/-- A parsed CSV row; `""` plays the role of a missing or empty cell,
which is falsy in the Python validation. -/
structure Row where
  bibNumber : String
  racerName : String
  gender : String
  team : String
deriving DecidableEq, Repr

/-- Merge a valid row into the existing entry for its bib
(`local_server.py` 498-517): only the identity fields change. -/
def applyRow (row : Row) (r : Racer) : Racer :=
  { r with
    racerName := strTrim row.racerName
    gender := if row.gender = "" then r.gender
      else some (normalizeGender row.gender)
    team := if row.team = "" then r.team else some (strTrim row.team) }

/-- The entry created for a bib without an existing `ResultEntry`
(`local_server.py` 519-543). -/
def newRosterRacer (row : Row) : Racer :=
  { id := row.bibNumber
    bibNumber := row.bibNumber
    racerName := strTrim row.racerName
    finishTime := none
    rank := none
    gender := if row.gender = "" then none
      else some (normalizeGender row.gender)
    team := if row.team = "" then none else some (strTrim row.team) }

/-- `existing_data[racer["bibNumber"]] = racer.copy()` on an
insertion-ordered dictionary: an existing key keeps its position and
takes the new value; a new key is appended. -/
def dictInsert (rs : List Racer) (r : Racer) : List Racer :=
  match rs with
  | [] => [r]
  | x :: xs =>
    if x.bibNumber = r.bibNumber then r :: xs else x :: dictInsert xs r

/-- The `existing_data` dictionary built from `race_results`
(`local_server.py` 473-475), as its ordered value list. -/
def dictFromResults (rs : List Racer) : List Racer :=
  rs.foldl dictInsert []

/-- In-place update of the entry stored under a bib. -/
def updateBib (bib : String) (f : Racer → Racer) :
    List Racer → List Racer
  | [] => []
  | x :: xs =>
    if x.bibNumber = bib then f x :: xs else x :: updateBib bib f xs

/-- `bib_number in existing_data` / first-match dictionary lookup. -/
def lookupBib (rs : List Racer) (bib : String) : Option Racer :=
  rs.find? (fun r => r.bibNumber = bib)

/-- The mutable state of the row-processing loop of `upload_roster`:
the `existing_data` values, the `csv_duplicates` set, both counters and
the failed row numbers. -/
structure UploadState where
  existing : List Racer
  seen : List String
  uploaded : Nat
  updated : Nat
  errors : List Nat
deriving Repr

/-- One iteration of the row loop (`local_server.py` 482-547): reject
rows with a missing field or a bib already seen in this batch; merge
into the existing entry when the bib is present, create a fresh
not-yet-finished entry otherwise. -/
def processRow (st : UploadState) (idx : Nat) (row : Row) : UploadState :=
  if row.bibNumber = "" ∨ row.racerName = "" then
    { st with errors := st.errors ++ [idx] }
  else if row.bibNumber ∈ st.seen then
    { st with errors := st.errors ++ [idx] }
  else if row.bibNumber ∈ bibs st.existing then
    { st with
      seen := st.seen ++ [row.bibNumber],
      existing := updateBib row.bibNumber (applyRow row) st.existing,
      updated := st.updated + 1 }
  else
    { st with
      seen := st.seen ++ [row.bibNumber],
      existing := st.existing ++ [newRosterRacer row],
      uploaded := st.uploaded + 1 }

/-- The row loop, with `idx` the CSV row number (starting at 2). -/
def processRows : UploadState → Nat → List Row → UploadState
  | st, _, [] => st
  | st, idx, row :: rest => processRows (processRow st idx row) (idx + 1) rest

/-- The identity projection stored as an `original_roster` value
(`local_server.py` 560-565). -/
def rosterIdent (r : Racer) : RosterEntry :=
  { bibNumber := r.bibNumber, racerName := r.racerName,
    gender := r.gender, team := r.team }

/-- The `original_roster` rebuild (`local_server.py` 555-565): one
identity entry per not-yet-finished merged value.  The merged values
carry pairwise distinct bibs (they are dictionary values), so the
dictionary build is a plain map. -/
def rosterFromResults (rs : List Racer) : List (String × RosterEntry) :=
  (rs.filter (fun r => r.finishTime.isNone)).map
    (fun r => (r.bibNumber, rosterIdent r))

/-- Value of a non-empty all-digit character list. -/
def digitsVal (cs : List Char) : Option Nat :=
  if cs = [] ∨ ¬ cs.all Char.isDigit then none
  else some (cs.foldl (fun acc c => acc * 10 + (c.toNat - 48)) 0)

/-- `int(x["bibNumber"])` with Python semantics: optional surrounding
whitespace, an optional sign, then at least one digit; anything else
raises, which the sort key turns into infinity. -/
def parsePyInt (s : String) : Option Int :=
  match (strTrim s).data with
  | '-' :: cs => (digitsVal cs).map (fun n => -(n : Int))
  | '+' :: cs => (digitsVal cs).map (fun n => (n : Int))
  | cs => (digitsVal cs).map (fun n => (n : Int))

/-- `finish_time = x.get("finishTime") or float("inf")`: Python's `or`
treats `0.0` as falsy, so a zero finish time also maps to infinity
(`none` stands for infinity). -/
def ftKey (r : Racer) : Option ℚ :=
  match r.finishTime with
  | some t => if t = 0 then none else some t
  | none => none

/-- Strict comparison with `none` as plus infinity. -/
def qltOpt (a b : Option ℚ) : Bool :=
  match a, b with
  | some x, some y => decide (x < y)
  | some _, none => true
  | none, _ => false

/-- Non-strict comparison with `none` as plus infinity. -/
def zleOpt (a b : Option Int) : Bool :=
  match a, b with
  | some x, some y => decide (x ≤ y)
  | some _, none => true
  | none, some _ => false
  | none, none => true

/-- `has_finished = x.get("finishTime") is None` as the 0/1 value Python
uses for tuple comparison of booleans (`False < True`). -/
def finKeyN (r : Racer) : Nat := if r.finishTime.isNone then 1 else 0

/-- `bib_sort_key`: the parsed bib number, infinity (`none`) when the bib
is not numeric. -/
def bibKey (r : Racer) : Option Int := parsePyInt r.bibNumber

/-- The tuple comparison Python's stable sort performs on the key
`(has_finished, finish_time, bib_sort_key)` of `sort_key`
(`local_server.py` 571-585); `has_finished` is `finishTime is None`, so
finished entries sort first, then by finish time, then by numeric bib. -/
def uploadLe (a b : Racer) : Bool :=
  if finKeyN a < finKeyN b then true
  else if finKeyN b < finKeyN a then false
  else if qltOpt (ftKey a) (ftKey b) then true
  else if qltOpt (ftKey b) (ftKey a) then false
  else zleOpt (bibKey a) (bibKey b)

/-- The response data of `POST /api/roster/upload`. -/
structure UploadResult where
  results : List Racer
  roster : List (String × RosterEntry)
  uploaded : Nat
  updated : Nat
  errors : List Nat
deriving Repr

/-- `POST /api/roster/upload` (`upload_roster`, `local_server.py`
450-608): build `existing_data` from `race_results`, merge each CSV row
into it collecting per-row errors, replace `race_results` with the
merged values sorted by `sort_key`, and rebuild `original_roster` from
the not-yet-finished merged entries. -/
def upload_roster (rs : List Racer) (rows : List Row) : UploadResult :=
  let st := processRows ⟨dictFromResults rs, [], 0, 0, []⟩ 2 rows
  { results := isort uploadLe st.existing
    roster := rosterFromResults st.existing
    uploaded := st.uploaded
    updated := st.updated
    errors := st.errors }

/-- The rows that survive validation: required fields present and bib
not already claimed by an earlier valid row of the same batch. -/
def validRows : List String → List Row → List Row
  | _, [] => []
  | seen, row :: rest =>
    if row.bibNumber = "" ∨ row.racerName = "" then validRows seen rest
    else if row.bibNumber ∈ seen then validRows seen rest
    else row :: validRows (seen ++ [row.bibNumber]) rest

/-! ## Theorems -/

theorem ordInsert_perm (le : α → α → Bool) (a : α) (l : List α) :
    List.Perm (ordInsert le a l) (a :: l) := by
  induction l with
  | nil => simp [ordInsert]
  | cons b l ih =>
    simp only [ordInsert]
    by_cases h : le a b
    · simp [h]
    · simp only [h, if_neg]
      exact List.Perm.trans (List.Perm.cons b ih) (List.Perm.swap a b l)

theorem isort_perm (le : α → α → Bool) (l : List α) :
    List.Perm (isort le l) l := by
  induction l with
  | nil => simp [isort]
  | cons a l ih =>
    exact List.Perm.trans (ordInsert_perm le a (isort le l)) (List.Perm.cons a ih)

theorem isort_length (le : α → α → Bool) (l : List α) :
    (isort le l).length = l.length :=
  (isort_perm le l).length_eq

theorem mem_ordInsert (le : α → α → Bool) (a x : α) (l : List α) :
    x ∈ ordInsert le a l ↔ x = a ∨ x ∈ l := by
  have h := (ordInsert_perm le a l).mem_iff (a := x)
  simpa using h

theorem ordInsert_pairwise (le : α → α → Bool)
    (htotal : ∀ a b, le a b = true ∨ le b a = true)
    (htrans : ∀ a b c, le a b = true → le b c = true → le a c = true)
    (a : α) (l : List α)
    (hl : l.Pairwise (fun x y => le x y = true)) :
    (ordInsert le a l).Pairwise (fun x y => le x y = true) := by
  induction l with
  | nil => simp [ordInsert]
  | cons b l ih =>
    rcases List.pairwise_cons.mp hl with ⟨hb, hl2⟩
    simp only [ordInsert]
    by_cases h : le a b
    · simp only [h, if_true]
      refine List.pairwise_cons.mpr ⟨?_, hl⟩
      intro x hx
      rcases List.mem_cons.mp hx with hx | hx
      · exact hx ▸ h
      · exact htrans a b x h (hb x hx)
    · simp only [h, if_false]
      refine List.pairwise_cons.mpr ⟨?_, ih hl2⟩
      intro x hx
      rcases (mem_ordInsert le a x l).mp hx with hx | hx
      · rw [hx]
        rcases htotal a b with h2 | h2
        · exact absurd h2 (by simpa using h)
        · exact h2
      · exact hb x hx

theorem isort_pairwise (le : α → α → Bool)
    (htotal : ∀ a b, le a b = true ∨ le b a = true)
    (htrans : ∀ a b c, le a b = true → le b c = true → le a c = true)
    (l : List α) :
    (isort le l).Pairwise (fun x y => le x y = true) := by
  induction l with
  | nil => simp [isort]
  | cons a l ih => exact ordInsert_pairwise le htotal htrans a (isort le l) ih

theorem isort_eq_of_pairwise (le : α → α → Bool) (l : List α)
    (hl : l.Pairwise (fun x y => le x y = true)) :
    isort le l = l := by
  induction l with
  | nil => rfl
  | cons a l ih =>
    rcases List.pairwise_cons.mp hl with ⟨ha, hl2⟩
    simp only [isort, ih hl2]
    cases l with
    | nil => rfl
    | cons b l =>
      have h : le a b = true := ha b (List.mem_cons_self b l)
      simp [ordInsert, h]

theorem ordInsert_map (le : α → α → Bool) (f : α → α)
    (hf : ∀ x y, le (f x) (f y) = le x y) (a : α) (l : List α) :
    ordInsert le (f a) (l.map f) = (ordInsert le a l).map f := by
  induction l with
  | nil => simp [ordInsert]
  | cons b l ih =>
    simp only [List.map_cons, ordInsert, hf]
    by_cases h : le a b
    · simp [h]
    · simp [h, ih]

theorem isort_map (le : α → α → Bool) (f : α → α)
    (hf : ∀ x y, le (f x) (f y) = le x y) (l : List α) :
    isort le (l.map f) = (isort le l).map f := by
  induction l with
  | nil => rfl
  | cons a l ih => simp only [List.map_cons, isort, ih, ordInsert_map le f hf]

theorem bibs_cons (r : Racer) (rs : List Racer) :
    bibs (r :: rs) = r.bibNumber :: bibs rs := rfl

theorem map_setIf_of_notMem (bib : String) (k : Int) (rs : List Racer)
    (h : bib ∉ bibs rs) : rs.map (setIf bib k) = rs := by
  induction rs with
  | nil => rfl
  | cons r rs ih =>
    rw [bibs_cons, List.mem_cons] at h
    push_neg at h
    have h1 : r.bibNumber ≠ bib := Ne.symm h.1
    simp [setIf, h1, ih h.2]

theorem setRankFirst_eq_map (bib : String) (k : Int) (rs : List Racer)
    (hnd : (bibs rs).Nodup) :
    setRankFirst bib k rs = rs.map (setIf bib k) := by
  induction rs with
  | nil => rfl
  | cons r rs ih =>
    rw [bibs_cons, List.nodup_cons] at hnd
    by_cases hb : r.bibNumber = bib
    · subst hb
      simp [setRankFirst, setIf, map_setIf_of_notMem _ k rs hnd.1]
    · simp [setRankFirst, setIf, hb, ih hnd.2]

theorem bibs_setFinishFirst (bib : String) (t : ℚ) (rs : List Racer) :
    bibs (setFinishFirst bib t rs) = bibs rs := by
  induction rs with
  | nil => rfl
  | cons r rs ih =>
    by_cases h : r.bibNumber = bib <;> simp [setFinishFirst, h, ih, bibs_cons]

theorem bibs_setRankFirst (bib : String) (k : Int) (rs : List Racer) :
    bibs (setRankFirst bib k rs) = bibs rs := by
  induction rs with
  | nil => rfl
  | cons r rs ih =>
    by_cases h : r.bibNumber = bib <;> simp [setRankFirst, h, ih, bibs_cons]

theorem bibIdx_eq_none_of_notMem (b : String) (l : List String)
    (h : b ∉ l) : bibIdx b l = none := by
  induction l with
  | nil => rfl
  | cons c cs ih =>
    rw [List.mem_cons] at h
    push_neg at h
    simp [bibIdx, Ne.symm h.1, ih h.2]

theorem applyRanks_bibNumber (fb : List String) (k : Int) (r : Racer) :
    (applyRanks fb k r).bibNumber = r.bibNumber := by
  unfold applyRanks
  cases bibIdx r.bibNumber fb <;> rfl

theorem applyRanks_finishTime (fb : List String) (k : Int) (r : Racer) :
    (applyRanks fb k r).finishTime = r.finishTime := by
  unfold applyRanks
  cases bibIdx r.bibNumber fb <;> rfl

theorem applyRanks_nil (k : Int) (r : Racer) : applyRanks [] k r = r := rfl

theorem applyRanks_setIf (fb : List String) (b : String) (k : Int) (r : Racer)
    (hb : b ∉ fb) :
    applyRanks fb (k + 1) (setIf b k r) = applyRanks (b :: fb) k r := by
  by_cases h : r.bibNumber = b
  · have hsetbib : (setIf b k r).bibNumber = r.bibNumber := by
      unfold setIf; split <;> rfl
    have hL : applyRanks fb (k + 1) (setIf b k r) = setIf b k r := by
      unfold applyRanks
      rw [hsetbib, h, bibIdx_eq_none_of_notMem b fb hb]
    have hidx0 : bibIdx r.bibNumber (b :: fb) = some 0 := by
      simp [bibIdx, h.symm]
    have hR : applyRanks (b :: fb) k r = { r with rank := some k } := by
      unfold applyRanks
      rw [hidx0]
      norm_num
    rw [hL, hR]
    unfold setIf
    rw [if_pos h]
  · have hsetif : setIf b k r = r := by unfold setIf; rw [if_neg h]
    rw [hsetif]
    have hne : b ≠ r.bibNumber := fun he => h he.symm
    have hhead : bibIdx r.bibNumber (b :: fb) =
        (bibIdx r.bibNumber fb).map (fun i => i + 1) := by
      simp only [bibIdx]
      rw [if_neg hne]
    unfold applyRanks
    rw [hhead]
    cases hi : bibIdx r.bibNumber fb with
    | none => rfl
    | some i =>
      show ({ r with rank := some (k + 1 + (i : Int)) } : Racer) =
        { r with rank := some (k + ((i + 1 : ℕ) : Int)) }
      have hk : k + 1 + (i : Int) = k + ((i + 1 : ℕ) : Int) := by
        push_cast; ring
      rw [hk]

theorem assignRanks_eq_map (fin : List Racer) (k : Int) (rs : List Racer)
    (hnd : (bibs rs).Nodup) (hfin : (bibs fin).Nodup) :
    assignRanks fin k rs = rs.map (applyRanks (bibs fin) k) := by
  induction fin generalizing k rs with
  | nil =>
    have h : applyRanks (bibs ([] : List Racer)) k = fun r => r :=
      funext (fun r => applyRanks_nil k r)
    simp [assignRanks, h]
  | cons fr frs ih =>
    rw [bibs_cons, List.nodup_cons] at hfin
    have hnd2 : (bibs (setRankFirst fr.bibNumber k rs)).Nodup := by
      rw [bibs_setRankFirst]; exact hnd
    have step : assignRanks (fr :: frs) k rs =
        assignRanks frs (k + 1) (setRankFirst fr.bibNumber k rs) := rfl
    rw [step, ih (k + 1) _ hnd2 hfin.2, setRankFirst_eq_map fr.bibNumber k rs hnd,
      List.map_map]
    have hcomp : (applyRanks (bibs frs) (k + 1)) ∘ (setIf fr.bibNumber k) =
        applyRanks (bibs (fr :: frs)) k := by
      funext r
      exact applyRanks_setIf (bibs frs) fr.bibNumber k r hfin.1
    rw [hcomp]

theorem filter_map_comm (p : Racer → Bool) (f : Racer → Racer)
    (hf : ∀ r, p (f r) = p r) (rs : List Racer) :
    (rs.map f).filter p = (rs.filter p).map f := by
  induction rs with
  | nil => rfl
  | cons r rs ih =>
    simp only [List.map_cons, List.filter_cons, hf]
    by_cases h : p r
    · simp [h, ih]
    · simp [h, ih]

theorem bibIdx_get (l : List String) (hnd : l.Nodup) (i : Nat)
    (h : i < l.length) :
    bibIdx (l.get ⟨i, h⟩) l = some i := by
  induction l generalizing i with
  | nil => simp at h
  | cons c cs ih =>
    rw [List.nodup_cons] at hnd
    cases i with
    | zero => simp [bibIdx]
    | succ j =>
      have hj : j < cs.length := by simpa using h
      have hget : (c :: cs).get ⟨j + 1, h⟩ = cs.get ⟨j, hj⟩ := rfl
      have hmem : cs.get ⟨j, hj⟩ ∈ cs := List.get_mem cs j hj
      have hc : c ≠ cs.get ⟨j, hj⟩ := by
        intro he
        exact hnd.1 (he ▸ hmem)
      rw [hget]
      have hstep : bibIdx (cs.get ⟨j, hj⟩) (c :: cs) =
          (bibIdx (cs.get ⟨j, hj⟩) cs).map (fun i => i + 1) := by
        simp only [bibIdx]
        rw [if_neg hc]
      rw [hstep, ih hnd.2 j hj]
      rfl

theorem finTimeLe_applyRanks (fb : List String) (k : Int) (x y : Racer) :
    finTimeLe (applyRanks fb k x) (applyRanks fb k y) = finTimeLe x y := by
  unfold finTimeLe
  rw [applyRanks_finishTime, applyRanks_finishTime]

theorem map_rank_applyRanks (fin : List Racer)
    (hnd : (bibs fin).Nodup) :
    (fin.map (applyRanks (bibs fin) 1)).map (fun r => r.rank) =
      (List.range fin.length).map (fun i : ℕ => some ((i : Int) + 1)) := by
  apply List.ext_get
  · simp
  · intro n h1 h2
    have hn : n < fin.length := by simpa using h1
    have hfbn : n < (bibs fin).length := by unfold bibs; simpa using hn
    have hbib : (bibs fin).get ⟨n, hfbn⟩ = (fin.get ⟨n, hn⟩).bibNumber := by
      unfold bibs
      simp
    have hidx : bibIdx (fin.get ⟨n, hn⟩).bibNumber (bibs fin) = some n := by
      rw [← hbib]
      exact bibIdx_get (bibs fin) hnd n hfbn
    have happ : applyRanks (bibs fin) 1 (fin.get ⟨n, hn⟩) =
        { fin.get ⟨n, hn⟩ with rank := some (1 + (n : Int)) } := by
      unfold applyRanks
      rw [hidx]
    simp only [List.get_eq_getElem, List.getElem_map, List.getElem_range]
    have hgetn : fin[n] = fin.get ⟨n, hn⟩ := rfl
    rw [hgetn, happ]
    have hr : (1 : Int) + (n : Int) = (n : Int) + 1 := by ring
    simp [hr]

theorem recompute_ranks_rankInvariant (rs : List Racer)
    (hnd : (bibs rs).Nodup) : rankInvariant (recompute_ranks rs) := by
  have hfin_perm : List.Perm (isort finTimeLe (finishedRacers rs))
      (finishedRacers rs) := isort_perm _ _
  have hfil_nodup : (bibs (finishedRacers rs)).Nodup := by
    have hsub : List.Sublist (finishedRacers rs) rs := List.filter_sublist rs
    exact List.Nodup.sublist (hsub.map _) hnd
  have hfin_nodup : (bibs (isort finTimeLe (finishedRacers rs))).Nodup :=
    ((hfin_perm.map _).nodup_iff).mpr hfil_nodup
  have heq : recompute_ranks rs =
      rs.map (applyRanks (bibs (isort finTimeLe (finishedRacers rs))) 1) :=
    assignRanks_eq_map _ 1 rs hnd hfin_nodup
  have hfilter : finishedRacers
      (rs.map (applyRanks (bibs (isort finTimeLe (finishedRacers rs))) 1)) =
      (finishedRacers rs).map
        (applyRanks (bibs (isort finTimeLe (finishedRacers rs))) 1) := by
    unfold finishedRacers
    exact filter_map_comm _ _ (fun r => by rw [applyRanks_finishTime]) rs
  unfold rankInvariant
  rw [heq, hfilter, isort_map finTimeLe _ (finTimeLe_applyRanks _ 1)
    (finishedRacers rs), List.length_map, ← hfin_perm.length_eq]
  exact map_rank_applyRanks _ hfin_nodup

/-- C1, counterexample.  The claim asserts the rank invariant after *any*
sequence of `recordFinish`/`deleteEntry`/`reorder` operations.  It fails:
`delete_finisher` performs no rank recomputation, so after two
pre-registered racers finish (ranks correctly 1 and 2) and the rank-1
finisher is deleted, the one remaining finished entry still carries rank
2, violating the "ranks are exactly 1..N" part of the invariant. -/
theorem c1_counterexample :
    ¬ rankInvariant (delete_finisher (record_finish (record_finish
      [mkReg "7" "Ann", mkReg "8" "Bob"] (mkEv "7" 100)) (mkEv "8" 50)) "8") := by
  decide

/-- C1, amended.  After a `recordFinish` whose bib number matches an
existing entry (bib numbers being unique), the full rank recomputation
runs, and the finished entries sorted by finish time ascending (stable
insertion-order tie-break) carry ranks exactly 1..N in order.
`deleteEntry`, `reorder`, and the create path of `recordFinish` do not
re-establish this invariant. -/
theorem c1_rank_invariant_amended (rs : List Racer) (ev : FinishEvent)
    (hnd : (bibs rs).Nodup) (hmem : ev.bibNumber ∈ bibs rs) :
    rankInvariant (record_finish rs ev) := by
  unfold record_finish
  have hany : rs.any (fun r => r.bibNumber = ev.bibNumber) = true := by
    rw [List.any_eq_true]
    obtain ⟨r, hr, he⟩ := List.mem_map.mp hmem
    exact ⟨r, hr, by simp [he]⟩
  rw [if_pos hany]
  apply recompute_ranks_rankInvariant
  rw [bibs_setFinishFirst]
  exact hnd

theorem proj_setRankFirst (bib : String) (k : Int) (rs : List Racer) :
    (setRankFirst bib k rs).map (fun r => (r.bibNumber, r.finishTime)) =
      rs.map (fun r => (r.bibNumber, r.finishTime)) := by
  induction rs with
  | nil => rfl
  | cons r rs ih =>
    by_cases h : r.bibNumber = bib <;> simp [setRankFirst, h, ih]

theorem proj_assignRanks (fin : List Racer) (k : Int) (rs : List Racer) :
    (assignRanks fin k rs).map (fun r => (r.bibNumber, r.finishTime)) =
      rs.map (fun r => (r.bibNumber, r.finishTime)) := by
  induction fin generalizing k rs with
  | nil => rfl
  | cons fr frs ih =>
    have hstep : assignRanks (fr :: frs) k rs =
        assignRanks frs (k + 1) (setRankFirst fr.bibNumber k rs) := rfl
    rw [hstep, ih, proj_setRankFirst]

theorem proj_recompute_ranks (rs : List Racer) :
    (recompute_ranks rs).map (fun r => (r.bibNumber, r.finishTime)) =
      rs.map (fun r => (r.bibNumber, r.finishTime)) := by
  unfold recompute_ranks
  exact proj_assignRanks _ 1 rs

theorem setFinishFirst_mem (bib : String) (t : ℚ) (rs : List Racer)
    (h : bib ∈ bibs rs) :
    ∃ r ∈ setFinishFirst bib t rs,
      r.bibNumber = bib ∧ r.finishTime = some t := by
  induction rs with
  | nil => simp [bibs] at h
  | cons r rs ih =>
    by_cases hr : r.bibNumber = bib
    · refine ⟨{ r with finishTime := some t }, ?_, hr, rfl⟩
      simp [setFinishFirst, hr]
    · rw [bibs_cons, List.mem_cons] at h
      rcases h with h | h
      · exact absurd h.symm hr
      · obtain ⟨r2, hr2, hb2, hf2⟩ := ih h
        refine ⟨r2, ?_, hb2, hf2⟩
        simp [setFinishFirst, hr, hr2]

theorem record_finish_mem (rs : List Racer) (ev : FinishEvent) :
    ∃ r ∈ record_finish rs ev,
      r.bibNumber = ev.bibNumber ∧ r.finishTime = some ev.finishTime := by
  unfold record_finish
  split
  · next hany =>
    have hmem : ev.bibNumber ∈ bibs rs := by
      rw [List.any_eq_true] at hany
      obtain ⟨r, hr, he⟩ := hany
      have he2 : r.bibNumber = ev.bibNumber := by simpa using he
      exact he2 ▸ List.mem_map_of_mem _ hr
    obtain ⟨r, hr, hb, hf⟩ :=
      setFinishFirst_mem ev.bibNumber ev.finishTime rs hmem
    have hproj : (ev.bibNumber, some ev.finishTime) ∈
        (setFinishFirst ev.bibNumber ev.finishTime rs).map
          (fun r => (r.bibNumber, r.finishTime)) := by
      have h2 : (r.bibNumber, r.finishTime) ∈
          (setFinishFirst ev.bibNumber ev.finishTime rs).map
            (fun r => (r.bibNumber, r.finishTime)) :=
        List.mem_map_of_mem (fun r => (r.bibNumber, r.finishTime)) hr
      rw [hb, hf] at h2
      exact h2
    rw [← proj_recompute_ranks] at hproj
    obtain ⟨r2, hr2, hp2⟩ := List.mem_map.mp hproj
    rw [Prod.mk.injEq] at hp2
    exact ⟨r2, hr2, hp2.1, hp2.2⟩
  · next hany =>
    exact ⟨newFinisher ev (((finishedRacers rs).length : Int) + 1),
      by simp, rfl, rfl⟩

/-- Witness for `c1_rank_invariant_amended` on a concrete store. -/
theorem c1_witness :
    (bibs [mkReg "7" "Ann", mkReg "8" "Bob"]).Nodup ∧
    "7" ∈ bibs [mkReg "7" "Ann", mkReg "8" "Bob"] ∧
    rankInvariant
      (record_finish [mkReg "7" "Ann", mkReg "8" "Bob"] (mkEv "7" 100)) :=
  ⟨by decide, by decide,
    c1_rank_invariant_amended [mkReg "7" "Ann", mkReg "8" "Bob"]
      (mkEv "7" 100) (by decide) (by decide)⟩

theorem processOcr_fields (s : TrackState) (o : Obs) :
    (processOcr s o).finish_time_ms = s.finish_time_ms ∧
    (processOcr s o).finish_wall_time = s.finish_wall_time ∧
    (processOcr s o).has_finished = s.has_finished := by
  unfold processOcr
  by_cases hb : s.final_bib_confidence > 9/10
  · simp [hb]
  · simp only [hb, if_false]
    cases o.ocr <;> exact ⟨rfl, rfl, rfl⟩

theorem check_finished_of_finished (th : ℚ) (s : TrackState) (o : Obs)
    (h : s.has_finished = true) :
    check_finish_line_crossings th s o = s := by
  unfold check_finish_line_crossings
  rw [if_neg]
  exact fun hcon => hcon.1 h

theorem check_below (th : ℚ) (s : TrackState) (o : Obs)
    (hpos : o.posX < th) :
    check_finish_line_crossings th s o = s := by
  unfold check_finish_line_crossings
  rw [if_neg]
  exact fun hcon => absurd hcon.2 (not_le.mpr hpos)

theorem check_crossing (th : ℚ) (s : TrackState) (o : Obs)
    (h : s.has_finished = false) (hpos : th ≤ o.posX) :
    check_finish_line_crossings th s o =
      { s with finish_time_ms := some o.captureMs,
               finish_wall_time := some o.wallT,
               has_finished := true } := by
  unfold check_finish_line_crossings
  rw [if_pos]
  exact ⟨by rw [h]; simp, hpos⟩

theorem processObs_finished (th : ℚ) (s : TrackState) (o : Obs)
    (h : s.has_finished = true) :
    (processObs th s o).finish_time_ms = s.finish_time_ms ∧
    (processObs th s o).finish_wall_time = s.finish_wall_time ∧
    (processObs th s o).has_finished = true := by
  unfold processObs
  rw [check_finished_of_finished th s o h]
  obtain ⟨h1, h2, h3⟩ := processOcr_fields s o
  exact ⟨h1, h2, h3.trans h⟩

theorem processObs_below (th : ℚ) (s : TrackState) (o : Obs)
    (h : s.has_finished = false) (hpos : o.posX < th) :
    (processObs th s o).has_finished = false := by
  unfold processObs
  rw [check_below th s o hpos]
  exact (processOcr_fields s o).2.2.trans h

theorem processObs_crossing (th : ℚ) (s : TrackState) (o : Obs)
    (h : s.has_finished = false) (hpos : th ≤ o.posX) :
    (processObs th s o).finish_time_ms = some o.captureMs ∧
    (processObs th s o).finish_wall_time = some o.wallT ∧
    (processObs th s o).has_finished = true := by
  unfold processObs
  rw [check_crossing th s o h hpos]
  obtain ⟨h1, h2, h3⟩ := processOcr_fields
    { s with finish_time_ms := some o.captureMs,
             finish_wall_time := some o.wallT,
             has_finished := true } o
  exact ⟨h1, h2, h3⟩

theorem check_inv (th : ℚ) (s : TrackState) (o : Obs) (h : trackInv s) :
    trackInv (check_finish_line_crossings th s o) := by
  unfold check_finish_line_crossings
  split
  · unfold trackInv
    simp
  · exact h

theorem processObs_inv (th : ℚ) (s : TrackState) (o : Obs)
    (h : trackInv s) : trackInv (processObs th s o) := by
  obtain ⟨h1, h2, h3⟩ :=
    processOcr_fields (check_finish_line_crossings th s o) o
  have hc := check_inv th s o h
  unfold processObs trackInv
  rw [h1, h2, h3]
  exact hc

theorem foldl_inv (th : ℚ) (obs : List Obs) :
    ∀ s, trackInv s → trackInv (obs.foldl (processObs th) s) := by
  induction obs with
  | nil => intro s hs; exact hs
  | cons o obs ih =>
    intro s hs
    rw [List.foldl_cons]
    exact ih _ (processObs_inv th s o hs)

theorem foldl_finished (th : ℚ) (obs : List Obs) :
    ∀ s, s.has_finished = true →
    (obs.foldl (processObs th) s).finish_time_ms = s.finish_time_ms ∧
    (obs.foldl (processObs th) s).finish_wall_time = s.finish_wall_time ∧
    (obs.foldl (processObs th) s).has_finished = true := by
  induction obs with
  | nil => intro s hs; exact ⟨rfl, rfl, hs⟩
  | cons o obs ih =>
    intro s hs
    rw [List.foldl_cons]
    obtain ⟨h1, h2, h3⟩ := processObs_finished th s o hs
    obtain ⟨g1, g2, g3⟩ := ih _ h3
    exact ⟨g1.trans h1, g2.trans h2, g3⟩

theorem foldl_below (th : ℚ) :
    ∀ (obs : List Obs) (s : TrackState),
    (∀ p ∈ obs, p.posX < th) → s.has_finished = false →
    (obs.foldl (processObs th) s).has_finished = false := by
  intro obs
  induction obs with
  | nil => intro s _ hs; exact hs
  | cons o obs ih =>
    intro s hall hs
    rw [List.foldl_cons]
    exact ih _ (fun p hp => hall p (List.mem_cons_of_mem o hp))
      (processObs_below th s o hs (hall o (List.mem_cons_self o obs)))

/-- C2: over any frame sequence for one tracker, (1) `hasFinished` holds
exactly when both the capture-source and wall-clock finish timestamps are
set; (2) once finished, further frames never change the finish
timestamps or the flag; (3) the first frame whose center reaches the
finish-zone threshold records that frame's capture and wall times. -/
theorem c2_finish_once (th : ℚ) (obs : List Obs) :
    trackInv (runTracker th obs) ∧
    (∀ obs2 : List Obs, (runTracker th obs).has_finished = true →
      (obs2.foldl (processObs th) (runTracker th obs)).finish_time_ms =
        (runTracker th obs).finish_time_ms ∧
      (obs2.foldl (processObs th) (runTracker th obs)).finish_wall_time =
        (runTracker th obs).finish_wall_time ∧
      (obs2.foldl (processObs th) (runTracker th obs)).has_finished =
        true) ∧
    (∀ pre o rest, obs = pre ++ o :: rest →
      (∀ p ∈ pre, p.posX < th) → th ≤ o.posX →
      (runTracker th obs).finish_time_ms = some o.captureMs ∧
      (runTracker th obs).finish_wall_time = some o.wallT ∧
      (runTracker th obs).has_finished = true) := by
  refine ⟨?_, ?_, ?_⟩
  · apply foldl_inv th obs initTrackState
    unfold trackInv initTrackState
    simp
  · intro obs2 hfin
    exact foldl_finished th obs2 _ hfin
  · intro pre o rest heq hpre hpos
    unfold runTracker
    rw [heq, List.foldl_append, List.foldl_cons]
    have hpre2 : (pre.foldl (processObs th) initTrackState).has_finished =
        false := foldl_below th pre initTrackState hpre rfl
    obtain ⟨h1, h2, h3⟩ := processObs_crossing th _ o hpre2 hpos
    obtain ⟨g1, g2, g3⟩ := foldl_finished th rest _ h3
    exact ⟨g1.trans h1, g2.trans h2, g3⟩

/-- Witness for `c2_finish_once`: with threshold 10, the frames at
positions 5, 12, 13 finish the tracker on the second frame, freezing its
capture time 2 and wall time 200. -/
theorem c2_witness :
    (runTracker 10 [⟨5, 1, 100, none⟩, ⟨12, 2, 200, none⟩,
      ⟨13, 3, 300, none⟩]).finish_time_ms = some 2 ∧
    (runTracker 10 [⟨5, 1, 100, none⟩, ⟨12, 2, 200, none⟩,
      ⟨13, 3, 300, none⟩]).finish_wall_time = some 200 ∧
    (runTracker 10 [⟨5, 1, 100, none⟩, ⟨12, 2, 200, none⟩,
      ⟨13, 3, 300, none⟩]).has_finished = true :=
  (c2_finish_once 10 [⟨5, 1, 100, none⟩, ⟨12, 2, 200, none⟩,
      ⟨13, 3, 300, none⟩]).2.2
    [⟨5, 1, 100, none⟩] ⟨12, 2, 200, none⟩ [⟨13, 3, 300, none⟩]
    rfl (by decide) (by decide)

theorem scoreKeys_cons (b : String) (v : ℚ) (rest : List (String × ℚ)) :
    scoreKeys ((b, v) :: rest) = b :: scoreKeys rest := rfl

theorem addScore_ne_nil (scores : List (String × ℚ)) (b : String) (sc : ℚ) :
    addScore scores b sc ≠ [] := by
  cases scores with
  | nil => simp [addScore]
  | cons p rest =>
    obtain ⟨bb, v⟩ := p
    unfold addScore
    split <;> simp

theorem buildScores_ne_nil (reads : List (String × ℚ × ℚ)) :
    ∀ scores, scores ≠ [] → buildScores scores reads ≠ [] := by
  induction reads with
  | nil => intro scores h; exact h
  | cons r rest ih =>
    intro scores h
    obtain ⟨b, oc, yc⟩ := r
    exact ih _ (addScore_ne_nil scores b oc)

theorem maxPair_isSome (l : List (String × ℚ)) (h : l ≠ []) :
    ∃ p, maxPair l = some p := by
  cases l with
  | nil => exact absurd rfl h
  | cons x rest => exact ⟨_, rfl⟩

theorem foldl_max_spec (rest : List (String × ℚ)) :
    ∀ x : String × ℚ,
    (rest.foldl (fun best y => if y.2 > best.2 then y else best) x) ∈
        x :: rest ∧
    ∀ p ∈ x :: rest,
      p.2 ≤ (rest.foldl (fun best y => if y.2 > best.2 then y else best)
        x).2 := by
  induction rest with
  | nil =>
    intro x
    refine ⟨List.mem_cons_self x [], ?_⟩
    intro p hp
    rw [List.mem_singleton] at hp
    rw [hp]
    exact le_rfl
  | cons y rest ih =>
    intro x
    rw [List.foldl_cons]
    by_cases h : y.2 > x.2
    · rw [if_pos h]
      obtain ⟨hm, hb⟩ := ih y
      refine ⟨List.mem_cons_of_mem x hm, ?_⟩
      intro p hp
      rcases List.mem_cons.mp hp with rfl | hp
      · exact le_trans (le_of_lt h) (hb y (List.mem_cons_self y rest))
      · exact hb p hp
    · rw [if_neg h]
      obtain ⟨hm, hb⟩ := ih x
      constructor
      · rcases List.mem_cons.mp hm with hm | hm
        · rw [hm]
          exact List.mem_cons_self x _
        · exact List.mem_cons_of_mem x (List.mem_cons_of_mem y hm)
      · intro p hp
        rcases List.mem_cons.mp hp with rfl | hp
        · exact hb p (List.mem_cons_self p rest)
        rcases List.mem_cons.mp hp with rfl | hp
        · exact le_trans (not_lt.mp h) (hb x (List.mem_cons_self x rest))
        · exact hb p (List.mem_cons_of_mem x hp)

theorem maxPair_spec (l : List (String × ℚ)) (q : String × ℚ)
    (h : maxPair l = some q) :
    q ∈ l ∧ ∀ p ∈ l, p.2 ≤ q.2 := by
  cases l with
  | nil => simp [maxPair] at h
  | cons x rest =>
    unfold maxPair at h
    rw [Option.some.injEq] at h
    obtain ⟨hm, hb⟩ := foldl_max_spec rest x
    rw [h] at hm hb
    exact ⟨hm, hb⟩

theorem scoreKeys_addScore (scores : List (String × ℚ)) (b : String)
    (sc : ℚ) :
    scoreKeys (addScore scores b sc) =
      if b ∈ scoreKeys scores then scoreKeys scores
      else scoreKeys scores ++ [b] := by
  induction scores with
  | nil => simp [addScore, scoreKeys]
  | cons p rest ih =>
    obtain ⟨bb, v⟩ := p
    unfold addScore
    by_cases h : bb = b
    · rw [if_pos h]
      have hb : b ∈ scoreKeys ((bb, v) :: rest) := by
        rw [scoreKeys_cons, h]
        exact List.mem_cons_self b _
      rw [if_pos hb, scoreKeys_cons, scoreKeys_cons, h]
    · rw [if_neg h]
      have hkeys : scoreKeys ((bb, v) :: addScore rest b sc) =
          bb :: scoreKeys (addScore rest b sc) := rfl
      rw [hkeys, ih]
      have hne : b ≠ bb := fun hh => h hh.symm
      by_cases h2 : b ∈ scoreKeys rest
      · rw [if_pos h2,
          if_pos (show b ∈ scoreKeys ((bb, v) :: rest) from
            List.mem_cons_of_mem _ h2)]
        rfl
      · rw [if_neg h2, if_neg ?hnm]
        case hnm =>
          intro hcon
          rw [scoreKeys_cons, List.mem_cons] at hcon
          rcases hcon with hcon | hcon
          · exact hne hcon
          · exact h2 hcon
        rfl

theorem scoreKeys_nodup_addScore (scores : List (String × ℚ))
    (b : String) (sc : ℚ) (h : (scoreKeys scores).Nodup) :
    (scoreKeys (addScore scores b sc)).Nodup := by
  rw [scoreKeys_addScore]
  split
  · exact h
  · next h2 =>
    rw [List.nodup_append]
    refine ⟨h, List.nodup_singleton b, ?_⟩
    intro a ha hb2
    rw [List.mem_singleton] at hb2
    exact h2 (hb2 ▸ ha)

theorem scoreKeys_nodup_buildScores (reads : List (String × ℚ × ℚ)) :
    ∀ scores, (scoreKeys scores).Nodup →
    (scoreKeys (buildScores scores reads)).Nodup := by
  induction reads with
  | nil => intro scores h; exact h
  | cons r rest ih =>
    intro scores h
    obtain ⟨b, oc, yc⟩ := r
    exact ih _ (scoreKeys_nodup_addScore scores b oc h)

theorem eq_lookupScore_of_mem (scores : List (String × ℚ))
    (h : (scoreKeys scores).Nodup) (p : String × ℚ) (hp : p ∈ scores) :
    p.2 = lookupScore scores p.1 := by
  induction scores with
  | nil => simp at hp
  | cons q rest ih =>
    obtain ⟨bb, v⟩ := q
    rw [scoreKeys_cons, List.nodup_cons] at h
    rcases List.mem_cons.mp hp with hp | hp
    · rw [hp]
      unfold lookupScore
      rw [if_pos rfl]
    · have hmem : p.1 ∈ scoreKeys rest := List.mem_map_of_mem _ hp
      have hne : bb ≠ p.1 := fun he => h.1 (he ▸ hmem)
      unfold lookupScore
      rw [if_neg hne]
      exact ih h.2 hp

theorem scoreKeys_addScore_subset (scores : List (String × ℚ))
    (b : String) (sc : ℚ) :
    scoreKeys (addScore scores b sc) ⊆ scoreKeys scores ++ [b] := by
  rw [scoreKeys_addScore]
  split
  · exact fun a ha => List.mem_append_left _ ha
  · exact List.Subset.refl _

theorem mem_scoreKeys_addScore (scores : List (String × ℚ))
    (b : String) (sc : ℚ) :
    b ∈ scoreKeys (addScore scores b sc) := by
  rw [scoreKeys_addScore]
  split
  · next h => exact h
  · exact List.mem_append_right _ (List.mem_singleton_self b)

theorem scoreKeys_buildScores_mono (reads : List (String × ℚ × ℚ)) :
    ∀ scores, scoreKeys scores ⊆ scoreKeys (buildScores scores reads) := by
  induction reads with
  | nil => intro scores; exact List.Subset.refl _
  | cons r rest ih =>
    intro scores a ha
    obtain ⟨b, oc, yc⟩ := r
    apply ih (addScore scores b oc)
    rw [scoreKeys_addScore]
    split
    · exact ha
    · exact List.mem_append_left _ ha

theorem texts_subset_scoreKeys (reads : List (String × ℚ × ℚ)) :
    ∀ scores, reads.map (fun r => r.1) ⊆
      scoreKeys (buildScores scores reads) := by
  induction reads with
  | nil => intro scores; simp
  | cons r rest ih =>
    intro scores a ha
    obtain ⟨b, oc, yc⟩ := r
    rcases List.mem_cons.mp ha with ha | ha
    · apply scoreKeys_buildScores_mono rest (addScore scores b oc)
      rw [ha]
      exact mem_scoreKeys_addScore scores b oc
    · exact ih (addScore scores b oc) ha

theorem scoreKeys_buildScores_subset (reads : List (String × ℚ × ℚ)) :
    ∀ scores, scoreKeys (buildScores scores reads) ⊆
      scoreKeys scores ++ reads.map (fun r => r.1) := by
  induction reads with
  | nil => intro scores; simp [buildScores]
  | cons r rest ih =>
    intro scores a ha
    obtain ⟨b, oc, yc⟩ := r
    have h2 := ih (addScore scores b oc) ha
    rcases List.mem_append.mp h2 with h2 | h2
    · have h3 := scoreKeys_addScore_subset scores b oc h2
      rcases List.mem_append.mp h3 with h3 | h3
      · exact List.mem_append_left _ h3
      · rw [List.mem_singleton] at h3
        rw [h3]
        exact List.mem_append_right _ (List.mem_cons_self b _)
    · exact List.mem_append_right _ (List.mem_cons_of_mem b h2)

theorem lookupScore_addScore (scores : List (String × ℚ))
    (b b2 : String) (sc : ℚ) :
    lookupScore (addScore scores b sc) b2 =
      if b = b2 then lookupScore scores b2 + sc
      else lookupScore scores b2 := by
  induction scores with
  | nil =>
    by_cases h : b = b2
    · simp [addScore, lookupScore, h]
    · simp [addScore, lookupScore, h]
  | cons q rest ih =>
    obtain ⟨bb, v⟩ := q
    by_cases hbb : bb = b
    · subst hbb
      by_cases h : bb = b2
      · subst h
        simp [addScore, lookupScore]
      · simp [addScore, lookupScore, h]
    · by_cases h : bb = b2
      · subst h
        have hb2 : b ≠ bb := fun he => hbb he.symm
        simp [addScore, lookupScore, hbb, hb2]
      · simp [addScore, lookupScore, hbb, h, ih]

theorem sumScores_cons (rb : String) (oc yc : ℚ)
    (rest : List (String × ℚ × ℚ)) (b : String) :
    sumScores ((rb, oc, yc) :: rest) b =
      (if rb = b then oc else 0) + sumScores rest b := by
  unfold sumScores
  by_cases h : rb = b
  · simp [List.filter_cons, h]
  · simp [List.filter_cons, h]

theorem lookupScore_buildScores (reads : List (String × ℚ × ℚ)) :
    ∀ (scores : List (String × ℚ)) (b : String),
      lookupScore (buildScores scores reads) b =
        lookupScore scores b + sumScores reads b := by
  induction reads with
  | nil =>
    intro scores b
    simp [buildScores, sumScores]
  | cons r rest ih =>
    intro scores b
    obtain ⟨rb, oc, yc⟩ := r
    have hstep : buildScores scores ((rb, oc, yc) :: rest) =
        buildScores (addScore scores rb oc) rest := rfl
    rw [hstep, ih, lookupScore_addScore, sumScores_cons]
    by_cases h : rb = b
    · rw [if_pos h, if_pos h]
      ring
    · rw [if_neg h, if_neg h]
      ring

theorem filterReads_example : filterReads exampleReads = exampleReads := by
  norm_num [filterReads, exampleReads, List.filter,
    show decide (2 ≤ ("123" : String).length) = true from rfl,
    show decide (("123" : String).length ≤ 5) = true from rfl,
    show decide (2 ≤ ("128" : String).length) = true from rfl,
    show decide (("128" : String).length ≤ 5) = true from rfl]

theorem determine_final_bib_example :
    determine_final_bib exampleReads = some ("123", 3/2) := by
  unfold determine_final_bib
  rw [filterReads_example]
  norm_num [exampleReads, buildScores, addScore, maxPair]
  exact ⟨by simp, fun h => absurd h (by simp)⟩

theorem sumScores_example_123 :
    sumScores (filterReads exampleReads) "123" = 3/2 := by
  rw [filterReads_example]
  norm_num [sumScores, exampleReads, List.filter,
    show decide (("128" : String) = "123") = false from rfl,
    show decide (("123" : String) = "123") = true from rfl]

theorem sumScores_example_128 :
    sumScores (filterReads exampleReads) "128" = 19/20 := by
  rw [filterReads_example]
  norm_num [sumScores, exampleReads, List.filter,
    show decide (("128" : String) = "128") = true from rfl,
    show decide (("123" : String) = "128") = false from rfl]

/-- C3: bib resolution discards samples with text length outside [2, 5]
or OCR confidence not above 0.4; every candidate accumulates a score
equal to the sum of the OCR confidences of its surviving samples; the
resolved bib is a surviving candidate whose accumulated score is maximal;
no bib is resolved when no sample survives.  On the worked example the
scores are 123 ↦ 3/2 and 128 ↦ 19/20 and resolution returns "123". -/
theorem c3_bib_resolution (reads : List (String × ℚ × ℚ)) :
    (determine_final_bib reads = none ↔ filterReads reads = []) ∧
    (∀ c, lookupScore (buildScores [] (filterReads reads)) c =
      sumScores (filterReads reads) c) ∧
    (∀ b v, determine_final_bib reads = some (b, v) →
      b ∈ (filterReads reads).map (fun r => r.1) ∧
      v = sumScores (filterReads reads) b ∧
      ∀ c ∈ (filterReads reads).map (fun r => r.1),
        sumScores (filterReads reads) c ≤ v) ∧
    determine_final_bib exampleReads = some ("123", 3/2) ∧
    sumScores (filterReads exampleReads) "123" = 3/2 ∧
    sumScores (filterReads exampleReads) "128" = 19/20 := by
  have hbuildne : filterReads reads ≠ [] →
      buildScores [] (filterReads reads) ≠ [] := by
    intro hfil
    cases hc : filterReads reads with
    | nil => exact absurd hc hfil
    | cons r rest =>
      obtain ⟨b, oc, yc⟩ := r
      have hstep : buildScores ([] : List (String × ℚ))
          ((b, oc, yc) :: rest) = buildScores (addScore [] b oc) rest := rfl
      rw [hstep]
      exact buildScores_ne_nil rest _ (addScore_ne_nil [] b oc)
  refine ⟨?_, ?_, ?_, determine_final_bib_example, sumScores_example_123,
    sumScores_example_128⟩
  · constructor
    · intro h
      by_contra hfil
      unfold determine_final_bib at h
      by_cases hr : reads = []
      · exact hfil (by rw [hr]; rfl)
      · rw [if_neg hr, if_neg hfil] at h
        obtain ⟨p, hp⟩ := maxPair_isSome _ (hbuildne hfil)
        rw [hp] at h
        simp at h
    · intro h
      unfold determine_final_bib
      by_cases hr : reads = []
      · rw [if_pos hr]
      · rw [if_neg hr, if_pos h]
  · intro c
    rw [lookupScore_buildScores]
    simp [lookupScore]
  · intro b v hdet
    unfold determine_final_bib at hdet
    by_cases hr : reads = []
    · rw [if_pos hr] at hdet
      exact absurd hdet (by simp)
    · rw [if_neg hr] at hdet
      by_cases hfil : filterReads reads = []
      · rw [if_pos hfil] at hdet
        exact absurd hdet (by simp)
      · rw [if_neg hfil] at hdet
        obtain ⟨hm, hb⟩ := maxPair_spec _ _ hdet
        have hnodup :
            (scoreKeys (buildScores [] (filterReads reads))).Nodup :=
          scoreKeys_nodup_buildScores _ [] (by simp [scoreKeys])
        have hval : v =
            lookupScore (buildScores [] (filterReads reads)) b :=
          eq_lookupScore_of_mem _ hnodup (b, v) hm
        have hlk : ∀ c, lookupScore (buildScores [] (filterReads reads)) c
            = sumScores (filterReads reads) c := by
          intro c
          rw [lookupScore_buildScores]
          simp [lookupScore]
        have hsum : v = sumScores (filterReads reads) b := by
          rw [hval, hlk]
        refine ⟨?_, hsum, ?_⟩
        · have hbk : b ∈ scoreKeys (buildScores [] (filterReads reads)) := by
            have h2 : ((b, v) : String × ℚ).1 ∈
                scoreKeys (buildScores [] (filterReads reads)) :=
              List.mem_map_of_mem _ hm
            exact h2
          have hsub := scoreKeys_buildScores_subset (filterReads reads)
            [] hbk
          simpa [scoreKeys] using hsub
        · intro c hc
          have hck : c ∈ scoreKeys (buildScores [] (filterReads reads)) :=
            texts_subset_scoreKeys (filterReads reads) [] hc
          unfold scoreKeys at hck
          obtain ⟨p, hp, hp1⟩ := List.mem_map.mp hck
          have hple := hb p hp
          have hpval : p.2 =
              lookupScore (buildScores [] (filterReads reads)) p.1 :=
            eq_lookupScore_of_mem _ hnodup p hp
          rw [hp1] at hpval
          rw [← hlk c, ← hpval]
          exact hple

/-- Witness for `c3_bib_resolution`, instantiating the resolved-bib
conjunct on the worked example. -/
theorem c3_witness :
    "123" ∈ (filterReads exampleReads).map (fun r => r.1) ∧
    (3 : ℚ)/2 = sumScores (filterReads exampleReads) "123" ∧
    ∀ c ∈ (filterReads exampleReads).map (fun r => r.1),
      sumScores (filterReads exampleReads) c ≤ 3/2 :=
  (c3_bib_resolution exampleReads).2.2.1 "123" (3/2)
    determine_final_bib_example

/-- C4: recording a finish from a wall-clock timestamp returns a failure
and leaves the result set unchanged when the clock status is not running
or its start time is unset; otherwise the entry stored for the bib
carries official finish time `(wallClockTime - startTime) * 1000 +
offsetMs`. -/
theorem c4_wall_clock_finish (rs : List Racer) (clock : ClockState)
    (p : WallFinishPost) :
    (clock.status ≠ "running" ∨ clock.raceStartTime = none →
      update_finish_time rs clock p = (false, rs)) ∧
    (∀ st, clock.raceStartTime = some st → clock.status = "running" →
      (update_finish_time rs clock p).1 = true ∧
      ∃ r ∈ (update_finish_time rs clock p).2,
        r.bibNumber = p.bibNumber ∧
        r.finishTime =
          some ((p.wallClockTime - st) * 1000 + clock.offset)) := by
  constructor
  · intro h
    unfold update_finish_time
    cases hst : clock.raceStartTime with
    | none => rfl
    | some st =>
      rcases h with h | h
      · simp [h]
      · rw [hst] at h; exact absurd h (by simp)
  · intro st hst hrun
    have hstep : update_finish_time rs clock p =
        (true, record_finish rs
          ⟨p.bibNumber, (p.wallClockTime - st) * 1000 + clock.offset,
            p.racerName, p.gender, p.team⟩) := by
      unfold update_finish_time
      rw [hst]
      simp [hrun]
    rw [hstep]
    exact ⟨rfl, record_finish_mem rs _⟩

/-- Witness for `c4_wall_clock_finish`: a running clock started at 0 with
offset 7 records bib 5 finishing at wall time 2 as 2007 ms. -/
theorem c4_witness :
    (update_finish_time [] ⟨some 0, "running", 7⟩
      ⟨"5", 2, none, none, none⟩).1 = true ∧
    ∃ r ∈ (update_finish_time [] ⟨some 0, "running", 7⟩
      ⟨"5", 2, none, none, none⟩).2,
      r.bibNumber = "5" ∧ r.finishTime = some ((2 - 0) * 1000 + 7) :=
  (c4_wall_clock_finish [] ⟨some 0, "running", 7⟩
    ⟨"5", 2, none, none, none⟩).2 0 rfl rfl

/-- C5, counterexample.  The claim states that `edit(desiredTimeMs)`
performed while the clock is not running sets `offsetMs` to
`desiredTimeMs` directly.  The code instead branches on whether
`raceStartTime` is set: after `start` at wall time 0 followed by `stop`,
the clock is not running, yet `edit(60000)` at wall time 5 stores
`offset = 60000 - 5000 = 55000`, not `60000`. -/
theorem c5_counterexample :
    (clockStep (clockStep (clockStep clockInit (ClockOp.start 0))
        ClockOp.stop) (ClockOp.edit 60000 5)).status ≠ "running" ∧
    (clockStep (clockStep (clockStep clockInit (ClockOp.start 0))
        ClockOp.stop) (ClockOp.edit 60000 5)).offset = 55000 ∧
    (55000 : ℚ) ≠ 60000 := by
  refine ⟨by decide, ?_, by norm_num⟩
  show (60000 : ℚ) - (5 - 0) * 1000 = 55000
  norm_num

/-- C5, amended: `edit` branches on whether `startTime` is set (not on
the status).  If `raceStartTime = some st`, the offset becomes
`desired - (now - st) * 1000` — and if the clock is moreover running, the
official time queried at the same instant reads back as `desired`.  If
`raceStartTime` is unset, the offset is set to `desired` directly. -/
theorem c5_edit_amended (s : ClockState) (desired now : ℚ) :
    (∀ st, s.raceStartTime = some st →
      (clockStep s (ClockOp.edit desired now)).offset =
        desired - (now - st) * 1000 ∧
      (s.status = "running" →
        officialMs (clockStep s (ClockOp.edit desired now)) now =
          some desired)) ∧
    (s.raceStartTime = none →
      (clockStep s (ClockOp.edit desired now)).offset = desired) := by
  constructor
  · intro st hst
    have hstep : clockStep s (ClockOp.edit desired now) =
        { s with offset := desired - (now - st) * 1000 } := by
      unfold clockStep
      rw [hst]
    constructor
    · rw [hstep]
    · intro hrun
      rw [hstep]
      unfold officialMs
      simp only [hst, hrun, if_pos]
      have harith : (now - st) * 1000 + (desired - (now - st) * 1000) =
          desired := by ring
      rw [harith]
  · intro hst
    unfold clockStep
    rw [hst]

/-- Witness for `c5_edit_amended`: editing a running clock started at 0
to 60000 ms at wall time 5 stores offset 55000 and reads back 60000. -/
theorem c5_witness :
    (clockStep ⟨some 0, "running", 0⟩ (ClockOp.edit 60000 5)).offset =
      60000 - (5 - 0) * 1000 ∧
    officialMs (clockStep ⟨some 0, "running", 0⟩ (ClockOp.edit 60000 5)) 5 =
      some 60000 := by
  obtain ⟨h1, h2⟩ :=
    (c5_edit_amended ⟨some 0, "running", 0⟩ 60000 5).1 0 rfl
  exact ⟨h1, h2 rfl⟩

/-- C10: starting from the initial clock state, every state reachable by
any sequence of start/stop/edit/reset operations has status stopped or
running; the status paused listed in the data-model comment is never
produced. -/
theorem c10_no_paused (ops : List ClockOp) :
    ((ops.foldl clockStep clockInit).status = "stopped" ∨
      (ops.foldl clockStep clockInit).status = "running") ∧
    (ops.foldl clockStep clockInit).status ≠ "paused" := by
  have h : ∀ s : ClockState,
      (s.status = "stopped" ∨ s.status = "running") →
      ((ops.foldl clockStep s).status = "stopped" ∨
        (ops.foldl clockStep s).status = "running") := by
    induction ops with
    | nil => intro s hs; exact hs
    | cons op ops ih =>
      intro s hs
      rw [List.foldl_cons]
      apply ih
      cases op with
      | start now => right; rfl
      | stop => left; rfl
      | edit t now =>
        cases hst : s.raceStartTime <;> simpa [clockStep, hst] using hs
      | reset => left; rfl
  have hmain := h clockInit (Or.inl rfl)
  refine ⟨hmain, ?_⟩
  rcases hmain with h1 | h1 <;> rw [h1] <;> decide

theorem removeFirstConn_subset (l : List Conn) (c x : Conn)
    (h : x ∈ removeFirstConn l c) : x ∈ l := by
  induction l with
  | nil => simp [removeFirstConn] at h
  | cons y ys ih =>
    unfold removeFirstConn at h
    by_cases hy : y = c
    · rw [if_pos hy] at h
      exact List.mem_cons_of_mem y h
    · rw [if_neg hy] at h
      rcases List.mem_cons.mp h with h | h
      · exact h ▸ List.mem_cons_self y ys
      · exact List.mem_cons_of_mem y (ih h)

theorem notMem_removeFirstConn (l : List Conn) (c d : Conn)
    (h : c ∉ l) : c ∉ removeFirstConn l d :=
  fun hc => h (removeFirstConn_subset l d c hc)

theorem removeFirstConn_sublist (l : List Conn) (c : Conn) :
    List.Sublist (removeFirstConn l c) l := by
  induction l with
  | nil => exact List.Sublist.refl []
  | cons y ys ih =>
    unfold removeFirstConn
    by_cases hy : y = c
    · rw [if_pos hy]
      exact List.sublist_cons_self y ys
    · rw [if_neg hy]
      exact List.Sublist.cons₂ y ih

theorem notMem_removeFirstConn_self (l : List Conn) (c : Conn)
    (hnd : l.Nodup) : c ∉ removeFirstConn l c := by
  induction l with
  | nil => simp [removeFirstConn]
  | cons y ys ih =>
    rw [List.nodup_cons] at hnd
    unfold removeFirstConn
    by_cases hy : y = c
    · rw [if_pos hy]
      exact hy ▸ hnd.1
    · rw [if_neg hy]
      intro hc
      rcases List.mem_cons.mp hc with hc | hc
      · exact hy hc.symm
      · exact ih hnd.2 hc

theorem notMem_foldl_removeFirstConn (ds : List Conn) :
    ∀ l : List Conn, c ∉ l → c ∉ ds.foldl removeFirstConn l := by
  induction ds with
  | nil => intro l h; exact h
  | cons d ds ih =>
    intro l h
    rw [List.foldl_cons]
    exact ih _ (notMem_removeFirstConn l c d h)

theorem foldl_removeFirstConn_removes (ds : List Conn) :
    ∀ l : List Conn, l.Nodup → c ∈ ds →
      c ∉ ds.foldl removeFirstConn l := by
  induction ds with
  | nil => intro l _ h; simp at h
  | cons d ds ih =>
    intro l hnd hc
    rw [List.foldl_cons]
    by_cases hd : d = c
    · subst hd
      exact notMem_foldl_removeFirstConn ds _
        (notMem_removeFirstConn_self l d hnd)
    · have hc2 : c ∈ ds := by
        rcases List.mem_cons.mp hc with hc | hc
        · exact absurd hc.symm hd
        · exact hc
      exact ih _ (List.Nodup.sublist (removeFirstConn_sublist l d) hnd) hc2

/-- C9: during one `publish`, a subscriber whose send raises is removed
from the active subscriber set by the end of the call, and every
subscriber whose send does not raise — in particular every one after the
failing subscriber — still receives the message. -/
theorem c9_broadcast (conns : List Conn) (c : Conn)
    (hnd : conns.Nodup) (hc : c ∈ conns) (hf : c.fails = true) :
    c ∉ (broadcast conns).1 ∧
    ∀ d ∈ conns, d.fails = false → d ∈ (broadcast conns).2 := by
  unfold broadcast
  cases conns with
  | nil => simp at hc
  | cons x xs =>
    rw [if_neg (by simp)]
    constructor
    · apply foldl_removeFirstConn_removes _ _ hnd
      rw [List.mem_filter]
      exact ⟨hc, hf⟩
    · intro d hd hdf
      rw [List.mem_filter]
      exact ⟨hd, by rw [hdf]; rfl⟩

/-- Witness for `c9_broadcast`: the failing client 2 is dropped and
clients 1 and 3 are still delivered to. -/
theorem c9_witness :
    (⟨2, true⟩ : Conn) ∉
      (broadcast [⟨1, false⟩, ⟨2, true⟩, ⟨3, false⟩]).1 ∧
    ∀ d ∈ [(⟨1, false⟩ : Conn), ⟨2, true⟩, ⟨3, false⟩], d.fails = false →
      d ∈ (broadcast [⟨1, false⟩, ⟨2, true⟩, ⟨3, false⟩]).2 :=
  c9_broadcast [⟨1, false⟩, ⟨2, true⟩, ⟨3, false⟩] ⟨2, true⟩
    (by decide) (by decide) rfl

theorem update_finisher_list_found (roster : List (String × RosterEntry))
    (fid : String) (p : Patch) :
    ∀ (rs : List Racer) (f : Racer),
      rs.find? (fun r => r.id = fid) = some f →
      (update_finisher_list roster fid p rs).1 =
        some (match rosterLookup roster (p.bibNumber.getD f.bibNumber) with
          | some rr =>
            mergeWithRoster fid f (p.bibNumber.getD f.bibNumber) rr p
          | none => updateNoRoster fid f p) := by
  intro rs
  induction rs with
  | nil => intro f hf; simp at hf
  | cons r rest ih =>
    intro f hf
    by_cases h : r.id = fid
    · have hfr : f = r := by
        rw [List.find?_cons_of_pos _ (by simpa using h)] at hf
        exact (Option.some_inj.mp hf).symm
      subst hfr
      unfold update_finisher_list
      rw [if_pos h]
      cases rosterLookup roster (p.bibNumber.getD f.bibNumber) <;> rfl
    · rw [List.find?_cons_of_neg _ (by simpa using h)] at hf
      unfold update_finisher_list
      rw [if_neg h]
      exact ih f hf

/-- C7, counterexample.  The claim says identity fields supplied in the
patch are ignored (except a non-empty racerName) when the bib is found in
the roster-of-truth.  But the merge loop copies every non-null patch
field: patching only `gender = "W"` onto an entry whose roster gender is
"M" produces gender "W", not the roster value "M". -/
theorem c7_counterexample :
    ((update_finisher
        [⟨"5", "5", "Alice", some 100, some 1, some "M", none⟩]
        [("5", ⟨"5", "Alice", some "M", none⟩)] "5"
        ⟨none, none, none, none, some "W", none⟩).1.map
      (fun r => r.gender)) = some (some "W") ∧
    some (some "W") ≠ some (some "M") := by
  constructor
  · decide
  · simp

/-- C7, amended: when the entry with the given id exists and the (new)
bib number is found in the roster-of-truth, the entry's identity fields
are re-derived from the roster entry, after which every non-null patch
field except `id` overrides the roster-derived value — `racerName` only
when non-empty after stripping; `id`, `finishTimeMs` and `rank` are
preserved unless the patch supplies them; numeric/finish fields from the
patch always apply. -/
theorem c7_update_entry_amended (rs : List Racer)
    (roster : List (String × RosterEntry)) (fid : String) (p0 : Patch)
    (f : Racer) (rr : RosterEntry)
    (hf : rs.find? (fun r => r.id = fid) = some f)
    (hrr : rosterLookup roster (p0.bibNumber.getD f.bibNumber) = some rr) :
    ∃ m, (update_finisher rs roster fid p0).1 = some m ∧
      m.id = fid ∧
      m.bibNumber = p0.bibNumber.getD f.bibNumber ∧
      (∀ n, p0.racerName = some n → strTrim n ≠ "" → m.racerName = n) ∧
      (p0.racerName = none → m.racerName = rr.racerName) ∧
      (∀ n, p0.racerName = some n → strTrim n = "" →
        m.racerName = rr.racerName) ∧
      (p0.finishTime = none → m.finishTime = f.finishTime) ∧
      (∀ t, p0.finishTime = some t → m.finishTime = some t) ∧
      (p0.rank = none → m.rank = f.rank) ∧
      (∀ k, p0.rank = some k → m.rank = some k) ∧
      (∀ g, p0.gender = some g → m.gender = some (normalizeGender g)) ∧
      (p0.gender = none → m.gender =
        (match rr.gender with
         | some g => if g = "" then none else some g
         | none => none)) ∧
      (∀ t, p0.team = some t → t ≠ "" → m.team = some (strTrim t)) ∧
      (p0.team = none → m.team =
        (match rr.team with
         | some t => if t = "" then none else some t
         | none => none)) := by
  have hbib : (normalizePatch p0).bibNumber = p0.bibNumber := rfl
  have hmain := update_finisher_list_found roster fid (normalizePatch p0)
    rs f hf
  rw [hbib, hrr] at hmain
  refine ⟨mergeWithRoster fid f (p0.bibNumber.getD f.bibNumber) rr
    (normalizePatch p0), hmain, rfl, ?_, ?_, ?_, ?_, ?_, ?_, ?_, ?_, ?_,
    ?_, ?_, ?_⟩
  · cases hb : p0.bibNumber with
    | none => simp [mergeWithRoster, normalizePatch, hb]
    | some b => simp [mergeWithRoster, normalizePatch, hb]
  · intro n hn hne
    simp [mergeWithRoster, normalizePatch, hn, hne]
  · intro hn
    simp [mergeWithRoster, normalizePatch, hn]
  · intro n hn hne
    simp [mergeWithRoster, normalizePatch, hn, hne]
  · intro hn
    simp [mergeWithRoster, normalizePatch, hn]
  · intro t ht
    simp [mergeWithRoster, normalizePatch, ht]
  · intro hn
    simp [mergeWithRoster, normalizePatch, hn]
  · intro k hk
    simp [mergeWithRoster, normalizePatch, hk]
  · intro g hg
    simp [mergeWithRoster, normalizePatch, hg]
  · intro hg
    simp [mergeWithRoster, normalizePatch, hg]
  · intro t ht hne
    simp [mergeWithRoster, normalizePatch, ht, hne]
  · intro ht
    simp [mergeWithRoster, normalizePatch, ht]

/-- Witness for `c7_update_entry_amended`: renumbering entry id 7 to bib
9 re-derives the identity from the roster entry for bib 9. -/
theorem c7_witness :
    ∃ m, (update_finisher
        [⟨"7", "7", "Old Name", some 100, some 1, none, none⟩]
        [("9", ⟨"9", "Roster Nine", some "M", some "TeamX"⟩)] "7"
        ⟨some "9", none, none, none, none, none⟩).1 = some m ∧
      m.id = "7" ∧
      m.bibNumber = (some "9").getD "7" ∧
      (∀ n, (none : Option String) = some n → strTrim n ≠ "" →
        m.racerName = n) ∧
      ((none : Option String) = none → m.racerName = "Roster Nine") ∧
      (∀ n, (none : Option String) = some n → strTrim n = "" →
        m.racerName = "Roster Nine") ∧
      ((none : Option ℚ) = none → m.finishTime = some 100) ∧
      (∀ t, (none : Option ℚ) = some t → m.finishTime = some t) ∧
      ((none : Option Int) = none → m.rank = some 1) ∧
      (∀ k, (none : Option Int) = some k → m.rank = some k) ∧
      (∀ g, (none : Option String) = some g →
        m.gender = some (normalizeGender g)) ∧
      ((none : Option String) = none → m.gender =
        (match (some "M" : Option String) with
         | some g => if g = "" then none else some g
         | none => none)) ∧
      (∀ t, (none : Option String) = some t → t ≠ "" →
        m.team = some (strTrim t)) ∧
      ((none : Option String) = none → m.team =
        (match (some "TeamX" : Option String) with
         | some t => if t = "" then none else some t
         | none => none)) :=
  c7_update_entry_amended
    [⟨"7", "7", "Old Name", some 100, some 1, none, none⟩]
    [("9", ⟨"9", "Roster Nine", some "M", some "TeamX"⟩)] "7"
    ⟨some "9", none, none, none, none, none⟩
    ⟨"7", "7", "Old Name", some 100, some 1, none, none⟩
    ⟨"9", "Roster Nine", some "M", some "TeamX"⟩ rfl rfl

theorem lookupBib_some_of_mem_bibs (rs : List Racer) (b : String)
    (h : b ∈ bibs rs) :
    ∃ e, lookupBib rs b = some e ∧ e.bibNumber = b ∧ e ∈ rs := by
  induction rs with
  | nil => simp [bibs] at h
  | cons r rest ih =>
    by_cases hr : r.bibNumber = b
    · refine ⟨r, ?_, hr, List.mem_cons_self r rest⟩
      unfold lookupBib
      rw [List.find?_cons_of_pos _ (by simpa using hr)]
    · rw [bibs_cons, List.mem_cons] at h
      rcases h with h | h
      · exact absurd h.symm hr
      · obtain ⟨e, he, hb, hm⟩ := ih h
        refine ⟨e, ?_, hb, List.mem_cons_of_mem r hm⟩
        unfold lookupBib at he ⊢
        rw [List.find?_cons_of_neg _ (by simpa using hr)]
        exact he

theorem lookupBib_none_of_notMem (rs : List Racer) (b : String)
    (h : b ∉ bibs rs) : lookupBib rs b = none := by
  induction rs with
  | nil => rfl
  | cons r rest ih =>
    rw [bibs_cons, List.mem_cons] at h
    push_neg at h
    unfold lookupBib
    rw [List.find?_cons_of_neg _ (by simpa using Ne.symm h.1)]
    exact ih h.2

theorem lookupBib_mem (rs : List Racer) (b : String) (e : Racer)
    (h : lookupBib rs b = some e) : e ∈ rs ∧ e.bibNumber = b := by
  unfold lookupBib at h
  have hm := List.mem_of_find?_eq_some h
  have hp := List.find?_some h
  exact ⟨hm, by simpa using hp⟩

theorem lookupBib_self_of_nodup (rs : List Racer)
    (hnd : (bibs rs).Nodup) (r : Racer) (hr : r ∈ rs) :
    lookupBib rs r.bibNumber = some r := by
  induction rs with
  | nil => simp at hr
  | cons x rest ih =>
    rw [bibs_cons, List.nodup_cons] at hnd
    rcases List.mem_cons.mp hr with hr | hr
    · subst hr
      unfold lookupBib
      rw [List.find?_cons_of_pos _ (by simp)]
    · have hxb : x.bibNumber ≠ r.bibNumber := by
        intro he
        exact hnd.1 (he ▸ List.mem_map_of_mem _ hr)
      unfold lookupBib
      rw [List.find?_cons_of_neg _ (by simpa using hxb)]
      exact ih hnd.2 hr

theorem bibs_dictInsert (rs : List Racer) (r : Racer) :
    bibs (dictInsert rs r) =
      if r.bibNumber ∈ bibs rs then bibs rs
      else bibs rs ++ [r.bibNumber] := by
  induction rs with
  | nil => simp [dictInsert, bibs]
  | cons x xs ih =>
    unfold dictInsert
    by_cases h : x.bibNumber = r.bibNumber
    · rw [if_pos h]
      have hmem : r.bibNumber ∈ bibs (x :: xs) := by
        rw [bibs_cons, h]
        exact List.mem_cons_self _ _
      rw [if_pos hmem, bibs_cons, bibs_cons, h]
    · rw [if_neg h]
      have hc : bibs (x :: dictInsert xs r) =
          x.bibNumber :: bibs (dictInsert xs r) := rfl
      rw [hc, ih]
      by_cases h2 : r.bibNumber ∈ bibs xs
      · rw [if_pos h2,
          if_pos (show r.bibNumber ∈ bibs (x :: xs) from
            List.mem_cons_of_mem _ h2)]
        rfl
      · rw [if_neg h2, if_neg ?hnm]
        case hnm =>
          intro hcon
          rw [bibs_cons, List.mem_cons] at hcon
          rcases hcon with hcon | hcon
          · exact h hcon.symm
          · exact h2 hcon
        rfl

theorem bibs_nodup_dictInsert (rs : List Racer) (r : Racer)
    (h : (bibs rs).Nodup) : (bibs (dictInsert rs r)).Nodup := by
  rw [bibs_dictInsert]
  split
  · exact h
  · next h2 =>
    rw [List.nodup_append]
    refine ⟨h, List.nodup_singleton _, ?_⟩
    intro a ha hb2
    rw [List.mem_singleton] at hb2
    exact h2 (hb2 ▸ ha)

theorem bibs_nodup_foldl_dictInsert (rs : List Racer) :
    ∀ acc, (bibs acc).Nodup → (bibs (rs.foldl dictInsert acc)).Nodup := by
  induction rs with
  | nil => intro acc h; exact h
  | cons r rest ih =>
    intro acc h
    rw [List.foldl_cons]
    exact ih _ (bibs_nodup_dictInsert acc r h)

theorem bibs_nodup_dictFromResults (rs : List Racer) :
    (bibs (dictFromResults rs)).Nodup :=
  bibs_nodup_foldl_dictInsert rs [] (by simp [bibs])

theorem dictInsert_eq_append (rs : List Racer) (r : Racer)
    (h : r.bibNumber ∉ bibs rs) : dictInsert rs r = rs ++ [r] := by
  induction rs with
  | nil => rfl
  | cons x xs ih =>
    rw [bibs_cons, List.mem_cons] at h
    push_neg at h
    unfold dictInsert
    rw [if_neg (Ne.symm h.1), ih h.2]
    rfl

theorem foldl_dictInsert_eq_append (rs : List Racer) :
    ∀ acc, (bibs (acc ++ rs)).Nodup →
      rs.foldl dictInsert acc = acc ++ rs := by
  induction rs with
  | nil => intro acc _; simp
  | cons r rest ih =>
    intro acc hnd
    rw [List.foldl_cons]
    have hnotin : r.bibNumber ∉ bibs acc := by
      intro hcon
      unfold bibs at hnd
      rw [List.map_append] at hnd
      have h1 := (List.nodup_append.mp hnd).2.2
      exact h1 hcon (by rw [List.map_cons]; exact List.mem_cons_self _ _)
    rw [dictInsert_eq_append acc r hnotin]
    have hnd2 : (bibs ((acc ++ [r]) ++ rest)).Nodup := by
      have he : (acc ++ [r]) ++ rest = acc ++ r :: rest := by simp
      rw [he]
      exact hnd
    rw [ih (acc ++ [r]) hnd2]
    simp

theorem dictFromResults_eq_self (rs : List Racer)
    (hnd : (bibs rs).Nodup) : dictFromResults rs = rs := by
  unfold dictFromResults
  have h := foldl_dictInsert_eq_append rs [] (by simpa using hnd)
  simpa using h

theorem bibs_updateBib (bib : String) (f : Racer → Racer)
    (hf : ∀ r, (f r).bibNumber = r.bibNumber) (rs : List Racer) :
    bibs (updateBib bib f rs) = bibs rs := by
  induction rs with
  | nil => rfl
  | cons x xs ih =>
    unfold updateBib
    by_cases h : x.bibNumber = bib
    · rw [if_pos h]
      rw [bibs_cons, bibs_cons, hf]
    · rw [if_neg h]
      rw [bibs_cons, bibs_cons, ih]

theorem updateBib_eq_of_fix (bib : String) (f : Racer → Racer)
    (rs : List Racer) (h : ∀ r ∈ rs, r.bibNumber = bib → f r = r) :
    updateBib bib f rs = rs := by
  induction rs with
  | nil => rfl
  | cons x xs ih =>
    unfold updateBib
    by_cases hx : x.bibNumber = bib
    · rw [if_pos hx, h x (List.mem_cons_self x xs) hx]
    · rw [if_neg hx, ih (fun r hr => h r (List.mem_cons_of_mem x hr))]

theorem lookupBib_updateBib_other (bib b : String) (f : Racer → Racer)
    (hf : ∀ r, (f r).bibNumber = r.bibNumber) (hne : b ≠ bib)
    (rs : List Racer) :
    lookupBib (updateBib bib f rs) b = lookupBib rs b := by
  induction rs with
  | nil => rfl
  | cons x xs ih =>
    unfold updateBib
    by_cases hx : x.bibNumber = bib
    · rw [if_pos hx]
      have hfx : (f x).bibNumber ≠ b := by
        rw [hf, hx]
        exact Ne.symm hne
      unfold lookupBib
      rw [List.find?_cons_of_neg _ (by simpa using hfx),
        List.find?_cons_of_neg _
          (by simpa using (show x.bibNumber ≠ b from hx ▸ Ne.symm hne))]
    · rw [if_neg hx]
      by_cases hxb : x.bibNumber = b
      · unfold lookupBib
        rw [List.find?_cons_of_pos _ (by simpa using hxb),
          List.find?_cons_of_pos _ (by simpa using hxb)]
      · unfold lookupBib
        rw [List.find?_cons_of_neg _ (by simpa using hxb),
          List.find?_cons_of_neg _ (by simpa using hxb)]
        exact ih

theorem lookupBib_updateBib_self (bib : String) (f : Racer → Racer)
    (hf : ∀ r, (f r).bibNumber = r.bibNumber) (rs : List Racer) :
    lookupBib (updateBib bib f rs) bib = (lookupBib rs bib).map f := by
  induction rs with
  | nil => rfl
  | cons x xs ih =>
    unfold updateBib
    by_cases hx : x.bibNumber = bib
    · rw [if_pos hx]
      unfold lookupBib
      rw [List.find?_cons_of_pos _ (by simp [hf, hx]),
        List.find?_cons_of_pos _ (by simpa using hx)]
      rfl
    · rw [if_neg hx]
      unfold lookupBib
      rw [List.find?_cons_of_neg _ (by simpa using hx),
        List.find?_cons_of_neg _ (by simpa using hx)]
      exact ih

theorem lookupBib_append_one (rs : List Racer) (r : Racer) (b : String) :
    lookupBib (rs ++ [r]) b =
      match lookupBib rs b with
      | some e => some e
      | none => if r.bibNumber = b then some r else none := by
  induction rs with
  | nil =>
    show lookupBib [r] b = _
    unfold lookupBib
    by_cases h : r.bibNumber = b
    · rw [List.find?_cons_of_pos _ (by simpa using h), if_pos h]
      rfl
    · rw [List.find?_cons_of_neg _ (by simpa using h), if_neg h]
      rfl
  | cons x xs ih =>
    show lookupBib (x :: (xs ++ [r])) b = _
    unfold lookupBib
    by_cases h : x.bibNumber = b
    · rw [List.find?_cons_of_pos _ (by simpa using h),
        List.find?_cons_of_pos _ (by simpa using h)]
    · rw [List.find?_cons_of_neg _ (by simpa using h),
        List.find?_cons_of_neg _ (by simpa using h)]
      exact ih

theorem applyRow_bibNumber (row : Row) (r : Racer) :
    (applyRow row r).bibNumber = r.bibNumber := rfl

theorem applyRow_id (row : Row) (r : Racer) :
    (applyRow row r).id = r.id := rfl

theorem applyRow_finishTime (row : Row) (r : Racer) :
    (applyRow row r).finishTime = r.finishTime := rfl

theorem applyRow_rank (row : Row) (r : Racer) :
    (applyRow row r).rank = r.rank := rfl

theorem processRows_cons (st : UploadState) (idx : Nat) (row : Row)
    (rest : List Row) :
    processRows st idx (row :: rest) =
      processRows (processRow st idx row) (idx + 1) rest := rfl

theorem validRows_mem (rows : List Row) :
    ∀ seen vr, vr ∈ validRows seen rows →
      vr.bibNumber ∉ seen ∧ vr.bibNumber ≠ "" ∧ vr.racerName ≠ "" := by
  induction rows with
  | nil => intro seen vr h; simp [validRows] at h
  | cons row rest ih =>
    intro seen vr h
    unfold validRows at h
    by_cases h1 : row.bibNumber = "" ∨ row.racerName = ""
    · rw [if_pos h1] at h
      exact ih seen vr h
    · rw [if_neg h1] at h
      by_cases h2 : row.bibNumber ∈ seen
      · rw [if_pos h2] at h
        exact ih seen vr h
      · rw [if_neg h2] at h
        rcases List.mem_cons.mp h with h | h
        · subst h
          push_neg at h1
          exact ⟨h2, h1.1, h1.2⟩
        · have h3 := ih _ vr h
          exact ⟨fun hcon => h3.1 (List.mem_append_left _ hcon), h3.2⟩

theorem processRows_preserve (rows : List Row) :
    ∀ st idx b, b ∈ st.seen → b ∈ bibs st.existing →
      lookupBib (processRows st idx rows).existing b =
        lookupBib st.existing b := by
  induction rows with
  | nil => intro st idx b _ _; rfl
  | cons row rest ih =>
    intro st idx b hseen hbib
    rw [processRows_cons]
    unfold processRow
    by_cases h1 : row.bibNumber = "" ∨ row.racerName = ""
    · rw [if_pos h1]
      exact ih _ _ b hseen hbib
    · rw [if_neg h1]
      by_cases h2 : row.bibNumber ∈ st.seen
      · rw [if_pos h2]
        exact ih _ _ b hseen hbib
      · rw [if_neg h2]
        have hne : b ≠ row.bibNumber := fun he => h2 (he ▸ hseen)
        by_cases h3 : row.bibNumber ∈ bibs st.existing
        · rw [if_pos h3]
          have h4 := ih
            { st with
              seen := st.seen ++ [row.bibNumber],
              existing := updateBib row.bibNumber (applyRow row)
                st.existing,
              updated := st.updated + 1 } (idx + 1) b
            (List.mem_append_left _ hseen)
            (by rw [bibs_updateBib _ _ (applyRow_bibNumber row)]
                exact hbib)
          rw [h4]
          exact lookupBib_updateBib_other row.bibNumber b _
            (applyRow_bibNumber row) hne st.existing
        · rw [if_neg h3]
          have h4 := ih
            { st with
              seen := st.seen ++ [row.bibNumber],
              existing := st.existing ++ [newRosterRacer row],
              uploaded := st.uploaded + 1 } (idx + 1) b
            (List.mem_append_left _ hseen)
            (by show b ∈ bibs (st.existing ++ [newRosterRacer row])
                unfold bibs
                rw [List.map_append]
                exact List.mem_append_left _ hbib)
          rw [h4]
          obtain ⟨e, he, _, _⟩ := lookupBib_some_of_mem_bibs _ _ hbib
          rw [lookupBib_append_one, he]

theorem processRows_lookup (rows : List Row) :
    ∀ st idx vr, vr ∈ validRows st.seen rows →
      lookupBib (processRows st idx rows).existing vr.bibNumber =
        some (match lookupBib st.existing vr.bibNumber with
          | some e => applyRow vr e
          | none => newRosterRacer vr) := by
  induction rows with
  | nil => intro st idx vr h; simp [validRows] at h
  | cons row rest ih =>
    intro st idx vr h
    rw [processRows_cons]
    unfold validRows at h
    unfold processRow
    by_cases h1 : row.bibNumber = "" ∨ row.racerName = ""
    · rw [if_pos h1] at h
      rw [if_pos h1]
      exact ih _ _ vr h
    · rw [if_neg h1] at h
      rw [if_neg h1]
      by_cases h2 : row.bibNumber ∈ st.seen
      · rw [if_pos h2] at h
        rw [if_pos h2]
        exact ih _ _ vr h
      · rw [if_neg h2] at h
        rw [if_neg h2]
        rcases List.mem_cons.mp h with heq | hvr
        · subst heq
          by_cases h3 : vr.bibNumber ∈ bibs st.existing
          · rw [if_pos h3]
            have hpres := processRows_preserve rest
              { st with
                seen := st.seen ++ [vr.bibNumber],
                existing := updateBib vr.bibNumber (applyRow vr)
                  st.existing,
                updated := st.updated + 1 } (idx + 1) vr.bibNumber
              (List.mem_append_right _ (List.mem_singleton_self _))
              (by rw [bibs_updateBib _ _ (applyRow_bibNumber vr)]
                  exact h3)
            rw [hpres]
            rw [lookupBib_updateBib_self _ _ (applyRow_bibNumber vr)]
            obtain ⟨e, he, _, _⟩ := lookupBib_some_of_mem_bibs _ _ h3
            rw [he]
            rfl
          · rw [if_neg h3]
            have hpres := processRows_preserve rest
              { st with
                seen := st.seen ++ [vr.bibNumber],
                existing := st.existing ++ [newRosterRacer vr],
                uploaded := st.uploaded + 1 } (idx + 1) vr.bibNumber
              (List.mem_append_right _ (List.mem_singleton_self _))
              (by show vr.bibNumber ∈
                    bibs (st.existing ++ [newRosterRacer vr])
                  unfold bibs
                  rw [List.map_append]
                  exact List.mem_append_right _ (by
                    rw [List.map_singleton]
                    exact List.mem_singleton_self _))
            rw [hpres, lookupBib_append_one,
              lookupBib_none_of_notMem _ _ h3]
            simp [newRosterRacer]
        · have hvm := validRows_mem rest _ vr hvr
          have hne : vr.bibNumber ≠ row.bibNumber := fun he =>
            hvm.1 (he ▸ List.mem_append_right _ (List.mem_singleton_self _))
          by_cases h3 : row.bibNumber ∈ bibs st.existing
          · rw [if_pos h3]
            have h4 := ih
              { st with
                seen := st.seen ++ [row.bibNumber],
                existing := updateBib row.bibNumber (applyRow row)
                  st.existing,
                updated := st.updated + 1 } (idx + 1) vr hvr
            rw [h4, lookupBib_updateBib_other row.bibNumber vr.bibNumber _
              (applyRow_bibNumber row) hne st.existing]
          · rw [if_neg h3]
            have h4 := ih
              { st with
                seen := st.seen ++ [row.bibNumber],
                existing := st.existing ++ [newRosterRacer row],
                uploaded := st.uploaded + 1 } (idx + 1) vr hvr
            rw [h4, lookupBib_append_one]
            cases hl : lookupBib st.existing vr.bibNumber with
            | some e => rfl
            | none =>
              rw [if_neg (show (newRosterRacer row).bibNumber ≠
                vr.bibNumber from fun he => hne he.symm)]

theorem qltOpt_asymm (a b : Option ℚ) (h : qltOpt a b = true) :
    qltOpt b a = false := by
  cases a <;> cases b <;> simp [qltOpt] at h ⊢
  exact le_of_lt h

theorem qltOpt_eq_of_not (a b : Option ℚ) (hab : qltOpt a b = false)
    (hba : qltOpt b a = false) : a = b := by
  cases a <;> cases b <;> simp [qltOpt] at hab hba ⊢
  exact le_antisymm hba hab

theorem qltOpt_trans (a b c : Option ℚ) (hab : qltOpt a b = true)
    (hbc : qltOpt b c = true) : qltOpt a c = true := by
  cases a <;> cases b <;> cases c <;> simp [qltOpt] at hab hbc ⊢
  exact lt_trans hab hbc

theorem zleOpt_total (a b : Option Int) :
    zleOpt a b = true ∨ zleOpt b a = true := by
  cases a <;> cases b <;> simp [zleOpt]
  exact le_total _ _

theorem zleOpt_trans (a b c : Option Int) (hab : zleOpt a b = true)
    (hbc : zleOpt b c = true) : zleOpt a c = true := by
  cases a <;> cases b <;> cases c <;> simp [zleOpt] at hab hbc ⊢
  exact le_trans hab hbc

theorem uploadLe_iff (a b : Racer) :
    uploadLe a b = true ↔
      finKeyN a < finKeyN b ∨
      (finKeyN a = finKeyN b ∧
        (qltOpt (ftKey a) (ftKey b) = true ∨
          (ftKey a = ftKey b ∧ zleOpt (bibKey a) (bibKey b) = true))) := by
  unfold uploadLe
  by_cases h1 : finKeyN a < finKeyN b
  · simp [h1]
  · rw [if_neg h1]
    by_cases h2 : finKeyN b < finKeyN a
    · rw [if_pos h2]
      constructor
      · intro h; exact absurd h (by simp)
      · intro h
        rcases h with h | h
        · exact absurd h h1
        · omega
    · rw [if_neg h2]
      have heq : finKeyN a = finKeyN b := by omega
      by_cases h3 : qltOpt (ftKey a) (ftKey b) = true
      · simp [h3, heq]
      · rw [if_neg h3]
        by_cases h4 : qltOpt (ftKey b) (ftKey a) = true
        · rw [if_pos h4]
          constructor
          · intro h; exact absurd h (by simp)
          · intro h
            rcases h with h | ⟨_, h⟩
            · exact absurd h h1
            · rcases h with h | ⟨hfe, _⟩
              · exact absurd h h3
              · rw [hfe] at h4
                have := qltOpt_asymm _ _ h4
                rw [hfe] at h3
                exact absurd h4 (by rw [this] at h4; simp at h4)
        · rw [if_neg h4]
          have hfe : ftKey a = ftKey b :=
            qltOpt_eq_of_not _ _ (by simpa using h3) (by simpa using h4)
          constructor
          · intro h
            exact Or.inr ⟨heq, Or.inr ⟨hfe, h⟩⟩
          · intro h
            rcases h with h | ⟨_, h⟩
            · exact absurd h h1
            · rcases h with h | ⟨_, h⟩
              · exact absurd h h3
              · exact h

theorem uploadLe_total (a b : Racer) :
    uploadLe a b = true ∨ uploadLe b a = true := by
  rcases Nat.lt_trichotomy (finKeyN a) (finKeyN b) with h | h | h
  · exact Or.inl ((uploadLe_iff a b).mpr (Or.inl h))
  · by_cases h3 : qltOpt (ftKey a) (ftKey b) = true
    · exact Or.inl ((uploadLe_iff a b).mpr (Or.inr ⟨h, Or.inl h3⟩))
    · by_cases h4 : qltOpt (ftKey b) (ftKey a) = true
      · exact Or.inr ((uploadLe_iff b a).mpr (Or.inr ⟨h.symm, Or.inl h4⟩))
      · have hfe : ftKey a = ftKey b :=
          qltOpt_eq_of_not _ _ (by simpa using h3) (by simpa using h4)
        rcases zleOpt_total (bibKey a) (bibKey b) with h5 | h5
        · exact Or.inl ((uploadLe_iff a b).mpr
            (Or.inr ⟨h, Or.inr ⟨hfe, h5⟩⟩))
        · exact Or.inr ((uploadLe_iff b a).mpr
            (Or.inr ⟨h.symm, Or.inr ⟨hfe.symm, h5⟩⟩))
  · exact Or.inr ((uploadLe_iff b a).mpr (Or.inl h))

theorem uploadLe_trans (a b c : Racer) (hab : uploadLe a b = true)
    (hbc : uploadLe b c = true) : uploadLe a c = true := by
  rw [uploadLe_iff] at hab hbc ⊢
  rcases hab with hab | ⟨hab1, hab2⟩
  · rcases hbc with hbc | ⟨hbc1, _⟩
    · exact Or.inl (Nat.lt_trans hab hbc)
    · exact Or.inl (hbc1 ▸ hab)
  · rcases hbc with hbc | ⟨hbc1, hbc2⟩
    · exact Or.inl (hab1 ▸ hbc)
    · refine Or.inr ⟨hab1.trans hbc1, ?_⟩
      rcases hab2 with hab2 | ⟨habe, hab3⟩
      · rcases hbc2 with hbc2 | ⟨hbce, _⟩
        · exact Or.inl (qltOpt_trans _ _ _ hab2 hbc2)
        · exact Or.inl (hbce ▸ hab2)
      · rcases hbc2 with hbc2 | ⟨hbce, hbc3⟩
        · exact Or.inl (habe ▸ hbc2)
        · exact Or.inr ⟨habe.trans hbce, zleOpt_trans _ _ _ hab3 hbc3⟩

theorem processRows_bibs_nodup (rows : List Row) :
    ∀ st idx, (bibs st.existing).Nodup →
      (bibs (processRows st idx rows).existing).Nodup := by
  induction rows with
  | nil => intro st idx h; exact h
  | cons row rest ih =>
    intro st idx h
    rw [processRows_cons]
    unfold processRow
    by_cases h1 : row.bibNumber = "" ∨ row.racerName = ""
    · rw [if_pos h1]
      exact ih _ _ h
    · rw [if_neg h1]
      by_cases h2 : row.bibNumber ∈ st.seen
      · rw [if_pos h2]
        exact ih _ _ h
      · rw [if_neg h2]
        by_cases h3 : row.bibNumber ∈ bibs st.existing
        · rw [if_pos h3]
          apply ih
          show (bibs (updateBib row.bibNumber (applyRow row)
            st.existing)).Nodup
          rw [bibs_updateBib _ _ (applyRow_bibNumber row)]
          exact h
        · rw [if_neg h3]
          apply ih
          show (bibs (st.existing ++ [newRosterRacer row])).Nodup
          unfold bibs
          rw [List.map_append, List.nodup_append]
          refine ⟨h, by simp, ?_⟩
          intro x hx hx2
          rw [List.map_singleton, List.mem_singleton] at hx2
          rw [hx2] at hx
          exact h3 hx

theorem applyRow_applyRow (row : Row) (e : Racer) :
    applyRow row (applyRow row e) = applyRow row e := by
  unfold applyRow
  by_cases hg : row.gender = "" <;> by_cases ht : row.team = "" <;>
    simp [hg, ht]

theorem applyRow_newRosterRacer (row : Row) :
    applyRow row (newRosterRacer row) = newRosterRacer row := by
  unfold applyRow newRosterRacer
  by_cases hg : row.gender = "" <;> by_cases ht : row.team = "" <;>
    simp [hg, ht]

theorem lookupBib_perm (rs rs2 : List Racer) (hperm : List.Perm rs2 rs)
    (hnd : (bibs rs).Nodup) (b : String) :
    lookupBib rs2 b = lookupBib rs b := by
  have hnd2 : (bibs rs2).Nodup := ((hperm.map _).nodup_iff).mpr hnd
  cases hl : lookupBib rs b with
  | some e =>
    have hm := lookupBib_mem _ _ _ hl
    have hm2 : e ∈ rs2 := hperm.mem_iff.mpr hm.1
    have h3 := lookupBib_self_of_nodup rs2 hnd2 e hm2
    rw [hm.2] at h3
    exact h3
  | none =>
    have hnotin : b ∉ bibs rs := by
      intro hcon
      obtain ⟨e, he, _, _⟩ := lookupBib_some_of_mem_bibs rs b hcon
      rw [hl] at he
      exact Option.noConfusion he
    apply lookupBib_none_of_notMem
    intro hcon
    exact hnotin ((hperm.map _).mem_iff.mp hcon)

theorem processRows_fixpoint (rows : List Row) :
    ∀ st idx,
      (∀ vr ∈ validRows st.seen rows, ∃ e,
        lookupBib st.existing vr.bibNumber = some e ∧ applyRow vr e = e) →
      (bibs st.existing).Nodup →
      (processRows st idx rows).existing = st.existing ∧
      (processRows st idx rows).uploaded = st.uploaded ∧
      (processRows st idx rows).updated =
        st.updated + (validRows st.seen rows).length := by
  induction rows with
  | nil =>
    intro st idx _ _
    refine ⟨rfl, rfl, ?_⟩
    show st.updated = st.updated + (validRows st.seen []).length
    simp [validRows]
  | cons row rest ih =>
    intro st idx hfix hnd
    rw [processRows_cons]
    unfold processRow
    by_cases h1 : row.bibNumber = "" ∨ row.racerName = ""
    · rw [if_pos h1]
      have hval : validRows st.seen (row :: rest) =
          validRows st.seen rest := by
        simp only [validRows]
        rw [if_pos h1]
      rw [hval] at hfix
      have h4 := ih { st with errors := st.errors ++ [idx] } (idx + 1)
        hfix hnd
      rw [hval]
      exact h4
    · rw [if_neg h1]
      by_cases h2 : row.bibNumber ∈ st.seen
      · rw [if_pos h2]
        have hval : validRows st.seen (row :: rest) =
            validRows st.seen rest := by
          simp only [validRows]
          rw [if_neg h1, if_pos h2]
        rw [hval] at hfix
        have h4 := ih { st with errors := st.errors ++ [idx] } (idx + 1)
          hfix hnd
        rw [hval]
        exact h4
      · rw [if_neg h2]
        have hval : validRows st.seen (row :: rest) =
            row :: validRows (st.seen ++ [row.bibNumber]) rest := by
          simp only [validRows]
          rw [if_neg h1, if_neg h2]
        rw [hval] at hfix
        obtain ⟨e, he, hae⟩ := hfix row (List.mem_cons_self _ _)
        have hm := lookupBib_mem _ _ _ he
        have h3 : row.bibNumber ∈ bibs st.existing :=
          hm.2 ▸ List.mem_map_of_mem _ hm.1
        rw [if_pos h3]
        have hupd : updateBib row.bibNumber (applyRow row) st.existing =
            st.existing := by
          apply updateBib_eq_of_fix
          intro r hr hrb
          have hlr := lookupBib_self_of_nodup st.existing hnd r hr
          rw [hrb, he] at hlr
          obtain rfl := Option.some_inj.mp hlr
          exact hae
        rw [hupd]
        have h4 := ih
          { st with
            seen := st.seen ++ [row.bibNumber],
            existing := st.existing,
            updated := st.updated + 1 } (idx + 1)
          (fun vr hvr => hfix vr (List.mem_cons_of_mem row hvr)) hnd
        refine ⟨h4.1, h4.2.1, ?_⟩
        rw [hval, h4.2.2]
        simp [List.length_cons]
        omega

/-- C8: importing the same roster batch twice with no intervening
finishes leaves the `ResultEntry` list identical after the second of
the imports — in particular there is no duplicate entry for any bib —
and the second import reports zero created entries and an updated count
equal to the number of valid rows of the batch. -/
theorem c8_roster_idempotent (rs : List Racer) (rows : List Row) :
    (upload_roster (upload_roster rs rows).results rows).results =
      (upload_roster rs rows).results ∧
    (bibs (upload_roster (upload_roster rs rows).results
      rows).results).Nodup ∧
    (upload_roster (upload_roster rs rows).results rows).uploaded = 0 ∧
    (upload_roster (upload_roster rs rows).results rows).updated =
      (validRows [] rows).length := by
  have hu1 : (upload_roster rs rows).results =
      isort uploadLe
        (processRows ⟨dictFromResults rs, [], 0, 0, []⟩ 2 rows).existing :=
    rfl
  have hnd1 : (bibs (processRows ⟨dictFromResults rs, [], 0, 0, []⟩ 2
      rows).existing).Nodup :=
    processRows_bibs_nodup rows _ 2 (bibs_nodup_dictFromResults rs)
  have hperm : List.Perm (upload_roster rs rows).results
      (processRows ⟨dictFromResults rs, [], 0, 0, []⟩ 2 rows).existing := by
    rw [hu1]
    exact isort_perm _ _
  have hndR : (bibs (upload_roster rs rows).results).Nodup :=
    ((hperm.map _).nodup_iff).mpr hnd1
  have hdict : dictFromResults (upload_roster rs rows).results =
      (upload_roster rs rows).results :=
    dictFromResults_eq_self _ hndR
  have hfix : ∀ vr ∈ validRows [] rows, ∃ e,
      lookupBib (upload_roster rs rows).results vr.bibNumber = some e ∧
      applyRow vr e = e := by
    intro vr hvr
    have hl := processRows_lookup rows ⟨dictFromResults rs, [], 0, 0, []⟩
      2 vr hvr
    have htrans := lookupBib_perm _ _ hperm hnd1 vr.bibNumber
    rw [hl] at htrans
    cases hcase : lookupBib (dictFromResults rs) vr.bibNumber with
    | some e =>
      rw [hcase] at htrans
      exact ⟨applyRow vr e, htrans, applyRow_applyRow vr e⟩
    | none =>
      rw [hcase] at htrans
      exact ⟨newRosterRacer vr, htrans, applyRow_newRosterRacer vr⟩
  have hfix2 : ∀ vr ∈ validRows
      (⟨(upload_roster rs rows).results, [], 0, 0, []⟩ :
        UploadState).seen rows, ∃ e,
      lookupBib (⟨(upload_roster rs rows).results, [], 0, 0, []⟩ :
        UploadState).existing vr.bibNumber = some e ∧
      applyRow vr e = e := hfix
  have hfp := processRows_fixpoint rows
    ⟨(upload_roster rs rows).results, [], 0, 0, []⟩ 2 hfix2 hndR
  have hsorted : ((upload_roster rs rows).results).Pairwise
      (fun x y => uploadLe x y = true) := by
    rw [hu1]
    exact isort_pairwise uploadLe uploadLe_total uploadLe_trans _
  have hu2 : (upload_roster (upload_roster rs rows).results rows).results
      = isort uploadLe (processRows
        ⟨dictFromResults (upload_roster rs rows).results, [], 0, 0, []⟩
        2 rows).existing := rfl
  have hresEq : (upload_roster (upload_roster rs rows).results
      rows).results = (upload_roster rs rows).results := by
    rw [hu2, hdict, hfp.1]
    exact isort_eq_of_pairwise uploadLe _ hsorted
  refine ⟨hresEq, by rw [hresEq]; exact hndR, ?_, ?_⟩
  · show (processRows
      ⟨dictFromResults (upload_roster rs rows).results, [], 0, 0, []⟩
      2 rows).uploaded = 0
    rw [hdict]
    exact hfp.2.1
  · show (processRows
      ⟨dictFromResults (upload_roster rs rows).results, [], 0, 0, []⟩
      2 rows).updated = (validRows [] rows).length
    rw [hdict, hfp.2.2]
    simp

/-- C6: for every valid row of an import batch, a row whose bib already
has a `ResultEntry` updates only the identity fields of that entry
(racerName always, gender/team when supplied) while its id,
`finishTimeMs` and `rank` are preserved untouched; a row with a new bib
creates an entry with null `finishTimeMs` and null `rank`; and after the
merge the roster-of-truth holds exactly the identity projections of the
merged entries whose `finishTimeMs` is null. -/
theorem c6_roster_merge (rs : List Racer) (rows : List Row) (vr : Row)
    (hvr : vr ∈ validRows [] rows) :
    (∀ e, lookupBib (dictFromResults rs) vr.bibNumber = some e →
      ∃ m ∈ (upload_roster rs rows).results,
        m = applyRow vr e ∧ m.bibNumber = vr.bibNumber ∧
        m.id = e.id ∧ m.finishTime = e.finishTime ∧ m.rank = e.rank ∧
        m.racerName = strTrim vr.racerName) ∧
    (lookupBib (dictFromResults rs) vr.bibNumber = none →
      ∃ m ∈ (upload_roster rs rows).results,
        m = newRosterRacer vr ∧ m.bibNumber = vr.bibNumber ∧
        m.finishTime = none ∧ m.rank = none) ∧
    (∀ b re, (b, re) ∈ (upload_roster rs rows).roster ↔
      ∃ m ∈ (upload_roster rs rows).results,
        m.finishTime = none ∧ b = m.bibNumber ∧ re = rosterIdent m) := by
  have hperm : List.Perm (upload_roster rs rows).results
      (processRows ⟨dictFromResults rs, [], 0, 0, []⟩ 2 rows).existing :=
    isort_perm _ _
  have hl := processRows_lookup rows ⟨dictFromResults rs, [], 0, 0, []⟩
    2 vr hvr
  refine ⟨?_, ?_, ?_⟩
  · intro e he
    rw [he] at hl
    have hm := lookupBib_mem _ _ _ hl
    have hebib := (lookupBib_mem _ _ _ he).2
    refine ⟨applyRow vr e, hperm.mem_iff.mpr hm.1, rfl, ?_,
      applyRow_id vr e, applyRow_finishTime vr e, applyRow_rank vr e, rfl⟩
    rw [applyRow_bibNumber, hebib]
  · intro he
    rw [he] at hl
    have hm := lookupBib_mem _ _ _ hl
    exact ⟨newRosterRacer vr, hperm.mem_iff.mpr hm.1, rfl, rfl, rfl, rfl⟩
  · intro b re
    show (b, re) ∈ rosterFromResults
      (processRows ⟨dictFromResults rs, [], 0, 0, []⟩ 2 rows).existing ↔ _
    unfold rosterFromResults
    constructor
    · intro hmem
      obtain ⟨m, hm1, hm2⟩ := List.mem_map.mp hmem
      have hm3 := List.mem_filter.mp hm1
      have hp : m.bibNumber = b ∧ rosterIdent m = re := by
        simp only [Prod.mk.injEq] at hm2
        exact hm2
      exact ⟨m, hperm.mem_iff.mpr hm3.1,
        Option.isNone_iff_eq_none.mp hm3.2, hp.1.symm, hp.2.symm⟩
    · intro hx
      obtain ⟨m, hmem, hft, hb, hre⟩ := hx
      apply List.mem_map.mpr
      refine ⟨m, List.mem_filter.mpr
        ⟨hperm.mem_iff.mp hmem, by simp [hft]⟩, ?_⟩
      rw [hb, hre]

/-- Witness for `c6_roster_merge`: merging a batch over a store holding
a finished bib-7 entry updates bib 7's name while keeping its finish
time and rank. -/
theorem c6_witness :
    ∃ m ∈ (upload_roster
        [⟨"7", "7", "Old", some 100, some 2, none, none⟩]
        [⟨"7", "New Name", "", ""⟩, ⟨"8", "Fresh", "f", "tm"⟩]).results,
      m = applyRow ⟨"7", "New Name", "", ""⟩
        ⟨"7", "7", "Old", some 100, some 2, none, none⟩ ∧
      m.bibNumber = (⟨"7", "New Name", "", ""⟩ : Row).bibNumber ∧
      m.id = "7" ∧ m.finishTime = some 100 ∧ m.rank = some 2 ∧
      m.racerName = strTrim "New Name" :=
  (c6_roster_merge [⟨"7", "7", "Old", some 100, some 2, none, none⟩]
    [⟨"7", "New Name", "", ""⟩, ⟨"8", "Fresh", "f", "tm"⟩]
    ⟨"7", "New Name", "", ""⟩ (by decide)).1
    ⟨"7", "7", "Old", some 100, some 2, none, none⟩ (by decide)

end BibTrack
